import Mathlib

/-!
Verification of the collaborative doubly-linked-list editing service.

The backend (`src/BackEnd/src/handlers/node.ts`, `src/BackEnd/src/utils/retry.ts`,
`src/BackEnd/src/components/node/node.model.ts`) persists anonymous nodes
`{prev, next, version}` in MongoDB and mutates them with version-checked
conditional updates inside transactions, driven by a bounded retry loop.
The frontend (`src/FrontEnd/src/store/reducers/NodesSlice.ts`) applies
broadcast deltas to a client-side node map.

The embedding models the node collection as an association list from ids
(`Nat`, standing for Mongo ObjectIds, which the database keeps unique) to
node records; each storage primitive (`findById`, `findHead`,
`findOneAndUpdate`, `findOneAndDelete`) is translated directly from the
corresponding Mongoose call.  A transaction is a pure function from the
pre-state to `Except JsError (result × post-state)`; an error aborts the
transaction, so the committed state on error is the pre-state.
-/

set_option autoImplicit false

namespace GraphList

/-- A JavaScript `Error` value as thrown by the backend: `name` and `message`
(`src/BackEnd/src/utils/retry.ts`). -/
structure JsError where
  name : String
  message : String
  deriving DecidableEq, Repr

/-- `conflictError` from `retry.ts`: an `Error` whose `name` is set to
`"ConflictError"`. -/
def conflictError (msg : String) : JsError :=
  ⟨"ConflictError", msg⟩

/-- The retry signal `new Error("RETRY")` (a plain `Error`, whose `name` is
`"Error"`). -/
def retryError : JsError :=
  ⟨"Error", "RETRY"⟩

/-- `isConflictError` from `retry.ts`. -/
def isConflictError (e : JsError) : Bool :=
  e.name == "ConflictError"

/-- A persisted node (`node.model.ts`): `prev`/`next` are nullable ObjectId
references and `version` a non-negative counter. -/
structure DbNode where
  prev : Option Nat
  next : Option Nat
  version : Nat
  deriving DecidableEq, Repr

/-- The persisted collection, as an association list id ↦ node.  MongoDB keeps
`_id` unique, which the `wf` predicate below records. -/
abbrev DbState := List (Nat × DbNode)

/-- The ids present in the collection. -/
def keys (s : DbState) : List Nat :=
  s.map Prod.fst

/-- Well-formedness guaranteed by the database: `_id` is a unique key. -/
def wf (s : DbState) : Prop :=
  (keys s).Nodup

/-- `Node.findById(id)`: the document with the given id, if any. -/
def findById (s : DbState) (id : Nat) : Option DbNode :=
  match s with
  | [] => none
  | (k, n) :: t => if k = id then some n else findById t id

/-- `Node.findOne({ prev: null })`: the first document whose `prev` is null. -/
def findHead (s : DbState) : Option (Nat × DbNode) :=
  match s with
  | [] => none
  | (k, n) :: t => if n.prev = none then some (k, n) else findHead t

/-- Replace the document with key `id` by `f` of it (in place). -/
def updateById (s : DbState) (id : Nat) (f : DbNode → DbNode) : DbState :=
  s.map fun e => if e.1 = id then (e.1, f e.2) else e

/-- Remove the document with key `id`. -/
def removeById (s : DbState) (id : Nat) : DbState :=
  s.filter fun e => ¬ e.1 = id

/-- `Node.findOneAndUpdate({_id: id, ...pred}, mutation, {new: true})`:
atomically apply `f` iff the document exists and matches `pred`; return the
post-mutation document and the new collection, or `none` if the predicate
failed. -/
def findOneAndUpdate (s : DbState) (id : Nat) (pred : DbNode → Bool) (f : DbNode → DbNode) :
    Option (DbNode × DbState) :=
  match findById s id with
  | none => none
  | some n => if pred n then some (f n, updateById s id f) else none

/-- `Node.findOneAndDelete({_id: id, ...pred})`. -/
def findOneAndDelete (s : DbState) (id : Nat) (pred : DbNode → Bool) :
    Option (DbNode × DbState) :=
  match findById s id with
  | none => none
  | some n => if pred n then some (n, removeById s id) else none

/-- One entry of `updatedNodes` (`IUpdatedNodes` in `SocketData.ts`): an
object carrying an optional `prev` and an optional `next` field, each of which
(when present) holds a nullable id. -/
structure NodeDelta where
  dprev : Option (Option Nat)
  dnext : Option (Option Nat)
  deriving DecidableEq, Repr

/-- `INodeAddedResult` from `handlers/node.ts`. -/
structure AddResult where
  createdId : Nat
  createdNode : DbNode
  updatedNodes : List (Nat × NodeDelta)
  deriving DecidableEq, Repr

/-- `INodeRemovedResult` from `handlers/node.ts`. -/
structure RemoveResult where
  deletedNodeId : Nat
  updatedNodes : List (Nat × NodeDelta)
  deriving DecidableEq, Repr

/-- `insertAtHead` from `handlers/node.ts`.  `newId` stands for the fresh
ObjectId Mongoose assigns to `new Node(...)`. -/
def insertAtHead (s : DbState) (newId : Nat) : Except JsError (AddResult × DbState) :=
  match findHead s with
  | none =>
    let newNode : DbNode := ⟨none, none, 0⟩
    .ok (⟨newId, newNode, []⟩, s ++ [(newId, newNode)])
  | some (hid, h) =>
    let newNode : DbNode := ⟨none, some hid, 0⟩
    match findOneAndUpdate s hid (fun n => n.prev == none && n.version == h.version)
        (fun n => { n with prev := some newId, version := n.version + 1 }) with
    | none => .error retryError
    | some (_, s1) =>
      .ok (⟨newId, newNode, [(hid, ⟨some (some newId), none⟩)]⟩, s1 ++ [(newId, newNode)])

/-- `insertAfter` from `handlers/node.ts`. -/
def insertAfter (s : DbState) (prevId : Nat) (newId : Nat) :
    Except JsError (AddResult × DbState) :=
  match findById s prevId with
  | none => .error (conflictError "Reference node was deleted")
  | some prev =>
    let nextId := prev.next
    let newNode : DbNode := ⟨some prevId, nextId, 0⟩
    match findOneAndUpdate s prevId (fun n => n.version == prev.version && n.next == nextId)
        (fun n => { n with next := some newId, version := n.version + 1 }) with
    | none => .error retryError
    | some (_, s1) =>
      match nextId with
      | none =>
        .ok (⟨newId, newNode, [(prevId, ⟨none, some (some newId)⟩)]⟩, s1 ++ [(newId, newNode)])
      | some nid =>
        match findById s1 nid with
        | none => .error (conflictError "Next node deleted concurrently")
        | some nxt =>
          match findOneAndUpdate s1 nid
              (fun n => n.version == nxt.version && n.prev == some prevId)
              (fun n => { n with prev := some newId, version := n.version + 1 }) with
          | none => .error retryError
          | some (_, s2) =>
            .ok (⟨newId, newNode,
                   [(prevId, ⟨none, some (some newId)⟩), (nid, ⟨some (some newId), none⟩)]⟩,
                 s2 ++ [(newId, newNode)])

/-- The `prevId` branch of `removeNodeExclusive`: patch the predecessor of the
node being deleted.  Returns the accumulated `updatedNodes` entries and the
new collection state. -/
def removeStepPrev (s : DbState) (nodeId : Nat) (d : DbNode) :
    Except JsError (List (Nat × NodeDelta) × DbState) :=
  match d.prev with
  | none => .ok ([], s)
  | some pid =>
    match findById s pid with
    | none => .error (conflictError "Previous node deleted concurrently")
    | some p =>
      match findOneAndUpdate s pid (fun n => n.version == p.version && n.next == some nodeId)
          (fun n => { n with next := d.next, version := n.version + 1 }) with
      | none => .error retryError
      | some (_, s1) => .ok ([(pid, ⟨none, some d.next⟩)], s1)

/-- The `nextId` branch of `removeNodeExclusive`: patch the successor of the
node being deleted. -/
def removeStepNext (s : DbState) (nodeId : Nat) (d : DbNode) :
    Except JsError (List (Nat × NodeDelta) × DbState) :=
  match d.next with
  | none => .ok ([], s)
  | some nid =>
    match findById s nid with
    | none => .error (conflictError "Next node deleted concurrently")
    | some q =>
      match findOneAndUpdate s nid (fun n => n.version == q.version && n.prev == some nodeId)
          (fun n => { n with prev := d.prev, version := n.version + 1 }) with
      | none => .error retryError
      | some (_, s1) => .ok ([(nid, ⟨some d.prev, none⟩)], s1)

/-- The transaction body of `removeNodeExclusive` from `handlers/node.ts`. -/
def removeNode (s : DbState) (nodeId : Nat) : Except JsError (RemoveResult × DbState) :=
  match findById s nodeId with
  | none => .error (conflictError "Node not found or already deleted")
  | some d =>
    match removeStepPrev s nodeId d with
    | .error e => .error e
    | .ok (u1, s1) =>
      match removeStepNext s1 nodeId d with
      | .error e => .error e
      | .ok (u2, s2) =>
        match findOneAndDelete s2 nodeId (fun n => n.version == d.version) with
        | none => .error retryError
        | some (_, s3) => .ok (⟨nodeId, u1 ++ u2⟩, s3)

/-- The state committed by a transaction: the post-state on success, the
unchanged pre-state when the transaction aborted with an error. -/
def commitState {α : Type} (s : DbState) (r : Except JsError (α × DbState)) : DbState :=
  match r with
  | .ok x => x.2
  | .error _ => s

instance exceptDecidableEq {ε α : Type} [DecidableEq ε] [DecidableEq α] :
    DecidableEq (Except ε α) := fun x y =>
  match x, y with
  | .ok a, .ok b =>
    if h : a = b then .isTrue (by rw [h])
    else .isFalse (by intro hc; cases hc; exact h rfl)
  | .ok _, .error _ => .isFalse (by intro hc; cases hc)
  | .error _, .ok _ => .isFalse (by intro hc; cases hc)
  | .error e, .error f =>
    if h : e = f then .isTrue (by rw [h])
    else .isFalse (by intro hc; cases hc; exact h rfl)

/-- The `maxRetries = 10` default of `withRetry`. -/
def maxRetriesDefault : Nat :=
  10

/-- The `while (attempt < maxRetries)` loop of `withRetry` from `retry.ts`,
at attempt index `attempt` with `fuel = maxRetries - attempt` attempts left in
the budget.  `op i` is the outcome of the `i`-th transactional attempt (the
closure's result, or the error it — or the commit — threw).  Returns the
surfaced outcome together with the number of attempts actually performed:
a successful attempt returns; a `ConflictError` is re-thrown; a plain
`Error("RETRY")` moves on to the next attempt; any other error is re-thrown
unchanged; an exhausted budget raises a `ConflictError`. -/
def withRetryFrom {T : Type} (op : Nat → Except JsError T) :
    Nat → Nat → Except JsError T × Nat
  | _, 0 => (.error (conflictError "Could not complete operation after several retries"), 0)
  | attempt, fuel + 1 =>
    match op attempt with
    | .ok t => (.ok t, 1)
    | .error e =>
      if isConflictError e then (.error e, 1)
      else if e.message == "RETRY" then
        let r := withRetryFrom op (attempt + 1) fuel
        (r.1, r.2 + 1)
      else (.error e, 1)

/-- `withRetry` from `retry.ts` with its default attempt budget. -/
def withRetry {T : Type} (op : Nat → Except JsError T) : Except JsError T × Nat :=
  withRetryFrom op 0 maxRetriesDefault

/-- One committed mutation-engine step on the persisted collection: a
successful `insertAtHead`, `insertAfter` or `removeNode` transaction.  For the
two inserts, `newId` is the ObjectId Mongoose assigns to the new document;
the database guarantees it is distinct from every persisted id. -/
def stepOk (s s2 : DbState) : Prop :=
  (∃ newId r, newId ∉ keys s ∧ insertAtHead s newId = .ok (r, s2)) ∨
  (∃ prevId newId r, newId ∉ keys s ∧ insertAfter s prevId newId = .ok (r, s2)) ∨
  (∃ nodeId r, removeNode s nodeId = .ok (r, s2))

namespace Client

/-- `INode` from the frontend models: the wire form of a node. -/
structure INode where
  id : Nat
  prev : Option Nat
  next : Option Nat
  version : Nat
  deriving DecidableEq, Repr

/-- `NodesState` from `NodesSlice.ts`: the client-side node map and the
currently selected node id (`null` when nothing is selected). -/
structure NodesState where
  list : List (Nat × INode)
  selectedNode : Option Nat
  deriving DecidableEq, Repr

/-- `INodeAddedData`: the payload of a `nodeAdded` broadcast. -/
structure NodeAddedData where
  createdNode : INode
  updatedNodes : List (Nat × NodeDelta)
  deriving DecidableEq, Repr

/-- `INodeRemovedData`: the payload of a `nodeRemoved` broadcast. -/
structure NodeRemovedData where
  deletedNodeId : Nat
  updatedNodes : List (Nat × NodeDelta)
  deriving DecidableEq, Repr

/-- `_.assign(node, update)`: overwrite exactly the fields present in the
delta object. -/
def assignDelta (n : INode) (d : NodeDelta) : INode :=
  { n with prev := d.dprev.getD n.prev, next := d.dnext.getD n.next }

/-- `state.list[k]` lookup on the client map. -/
def getEntry (l : List (Nat × INode)) (k : Nat) : Option INode :=
  match l with
  | [] => none
  | (k1, n) :: t => if k1 = k then some n else getEntry t k

/-- `_.assign(state.list[k], d)`: mutate the entry at key `k` in place; a
missing key is a no-op (lodash `assign` on `undefined` does nothing). -/
def assignEntry (l : List (Nat × INode)) (k : Nat) (d : NodeDelta) : List (Nat × INode) :=
  l.map fun e => if e.1 = k then (e.1, assignDelta e.2 d) else e

/-- `Object.entries(updatedNodes).forEach(([k, u]) => _.assign(state.list[k], u))`. -/
def applyUpdates (l : List (Nat × INode)) (us : List (Nat × NodeDelta)) :
    List (Nat × INode) :=
  us.foldl (fun acc u => assignEntry acc u.1 u.2) l

/-- `state.list[k] = v`: JS object assignment keeps an existing key at its
position and appends a new key at the end. -/
def setEntry (l : List (Nat × INode)) (k : Nat) (v : INode) : List (Nat × INode) :=
  if (getEntry l k).isSome then l.map fun e => if e.1 = k then (e.1, v) else e
  else l ++ [(k, v)]

/-- `delete state.list[k]`. -/
def removeEntry (l : List (Nat × INode)) (k : Nat) : List (Nat × INode) :=
  l.filter fun e => ¬ e.1 = k

/-- The `addNode` reducer of `nodesSlice` (`NodesSlice.ts`). -/
def addNode (st : NodesState) (p : NodeAddedData) : NodesState :=
  let sel :=
    match st.selectedNode with
    | none => some p.createdNode.id
    | some x => some x
  ⟨setEntry (applyUpdates st.list p.updatedNodes) p.createdNode.id p.createdNode, sel⟩

/-- The cumulative effect on one node (stored at key `k`) of applying all the
deltas of `us` in order: specification device for `applyUpdates`. -/
def dsApply (k : Nat) (n : INode) (us : List (Nat × NodeDelta)) : INode :=
  us.foldl (fun m u => if u.1 = k then assignDelta m u.2 else m) n

/-- The last `prev` value that the deltas of `us` write to key `k`, if any. -/
def lastDeltaPrev (k : Nat) : List (Nat × NodeDelta) → Option (Option Nat)
  | [] => none
  | u :: t =>
    match lastDeltaPrev k t with
    | some v => some v
    | none => if u.1 = k then u.2.dprev else none

/-- The last `next` value that the deltas of `us` write to key `k`, if any. -/
def lastDeltaNext (k : Nat) : List (Nat × NodeDelta) → Option (Option Nat)
  | [] => none
  | u :: t =>
    match lastDeltaNext k t with
    | some v => some v
    | none => if u.1 = k then u.2.dnext else none

/-- The `removeNode` reducer of `nodesSlice` (`NodesSlice.ts`).  The new
selection is `deletedNode?.next || deletedNode?.prev || null`, computed from
the pre-delta map. -/
def removeNode (st : NodesState) (p : NodeRemovedData) : NodesState :=
  let sel :=
    if st.selectedNode = some p.deletedNodeId then
      match getEntry st.list p.deletedNodeId with
      | none => none
      | some dn =>
        match dn.next with
        | some nx => some nx
        | none => dn.prev
    else st.selectedNode
  ⟨removeEntry (applyUpdates st.list p.updatedNodes) p.deletedNodeId, sel⟩

end Client

/-!
## The doubly-linked-list invariant

`seg s p c L p2 c2` says: starting at the cursor `c` (an optional id) whose
node is expected to carry back-pointer `p`, the ids `L` form a consecutive
chain of documents of `s` linked by `next`, after which the cursor is `c2`
with expected back-pointer `p2`.  A full list representation is a segment
from cursor `L.head?` with expected back-pointer `none` that ends at cursor
`none` (the tail's `next`).
-/

/-- A consecutive doubly-linked segment of the persisted collection. -/
inductive seg (s : DbState) : Option Nat → Option Nat → List Nat → Option Nat → Option Nat → Prop
  | nil (p c : Option Nat) : seg s p c [] p c
  | cons {p p2 c2 : Option Nat} {id : Nat} {n : DbNode} {L : List Nat} :
      findById s id = some n → n.prev = p → seg s (some id) n.next L p2 c2 →
      seg s p (some id) (id :: L) p2 c2

/-- `L` enumerates the persisted collection exactly once, in chain order from
the head via `next`, acyclically. -/
def represents (s : DbState) (L : List Nat) : Prop :=
  (∃ st p2, seg s none st L p2 none) ∧ L.Nodup ∧ ∀ id, id ∈ keys s ↔ id ∈ L

/-- At most one persisted node has `prev = nil`. -/
def atMostOneHead (s : DbState) : Prop :=
  ∀ id1 id2 n1 n2, findById s id1 = some n1 → findById s id2 = some n2 →
    n1.prev = none → n2.prev = none → id1 = id2

/-- At most one persisted node has `next = nil`. -/
def atMostOneTail (s : DbState) : Prop :=
  ∀ id1 id2 n1 n2, findById s id1 = some n1 → findById s id2 = some n2 →
    n1.next = none → n2.next = none → id1 = id2

/-- Forward pointer symmetry: `N.next = M ≠ nil` implies `M` exists and
`M.prev = N.id`. -/
def nextPrevSym (s : DbState) : Prop :=
  ∀ id n m, findById s id = some n → n.next = some m →
    ∃ nm, findById s m = some nm ∧ nm.prev = some id

/-- Backward pointer symmetry: `N.prev = M ≠ nil` implies `M` exists and
`M.next = N.id`. -/
def prevNextSym (s : DbState) : Prop :=
  ∀ id n m, findById s id = some n → n.prev = some m →
    ∃ nm, findById s m = some nm ∧ nm.next = some id

/-- The list-wide invariants of the spec (§3), together with the key
uniqueness the database provides: at most one head, at most one tail, pointer
symmetry in both directions, and the chain from the head via `next`
enumerating every persisted node exactly once, acyclically. -/
def InvFull (s : DbState) : Prop :=
  wf s ∧ atMostOneHead s ∧ atMostOneTail s ∧ nextPrevSym s ∧ prevNextSym s ∧
    ∃ L, represents s L

/-- The back-pointer expected by the node that follows the ids `X` when the
segment starts with expected back-pointer `p`: `p` for an empty `X`, otherwise
the last id of `X`. -/
def expBack (p : Option Nat) : List Nat → Option Nat
  | [] => p
  | q :: t => expBack (some q) t

/-- The forward pointer expected at the start of the ids `Y` when the segment
ends with cursor `c2`: `c2` for an empty `Y`, otherwise the first id of `Y`. -/
def expFront (c2 : Option Nat) : List Nat → Option Nat
  | [] => c2
  | m :: _ => some m

/-! ## Basic facts about the storage primitives -/

theorem keys_cons (e : Nat × DbNode) (t : DbState) : keys (e :: t) = e.1 :: keys t :=
  rfl

theorem updateById_cons (e : Nat × DbNode) (t : DbState) (id : Nat) (f : DbNode → DbNode) :
    updateById (e :: t) id f =
      (if e.1 = id then (e.1, f e.2) else e) :: updateById t id f :=
  rfl

theorem removeById_cons (e : Nat × DbNode) (t : DbState) (id : Nat) :
    removeById (e :: t) id = if e.1 = id then removeById t id else e :: removeById t id := by
  by_cases h : e.1 = id <;> simp [removeById, h]

theorem findById_eq_none_iff {s : DbState} {id : Nat} :
    findById s id = none ↔ id ∉ keys s := by
  induction s with
  | nil => simp [findById, keys]
  | cons e t ih =>
    obtain ⟨k, n⟩ := e
    by_cases h : k = id
    · simp [findById, keys_cons, h]
    · simp only [findById, keys_cons, List.mem_cons, if_neg h, ih]
      constructor
      · intro hn hc
        rcases hc with hc | hc
        · exact h hc.symm
        · exact hn hc
      · intro hn
        exact fun hc => hn (Or.inr hc)

theorem mem_keys_of_findById {s : DbState} {id : Nat} {n : DbNode}
    (h : findById s id = some n) : id ∈ keys s := by
  by_contra hmem
  rw [← findById_eq_none_iff] at hmem
  rw [h] at hmem
  cases hmem

theorem findById_isSome_of_mem_keys {s : DbState} {id : Nat} (h : id ∈ keys s) :
    ∃ n, findById s id = some n := by
  cases hf : findById s id with
  | none => exact absurd (findById_eq_none_iff.mp hf) (by simp [h])
  | some n => exact ⟨n, rfl⟩

theorem keys_updateById (s : DbState) (id : Nat) (f : DbNode → DbNode) :
    keys (updateById s id f) = keys s := by
  induction s with
  | nil => rfl
  | cons e t ih =>
    rw [updateById_cons]
    by_cases h : e.1 = id <;> simp [keys_cons, h, ih]

theorem findById_updateById (s : DbState) (id j : Nat) (f : DbNode → DbNode) :
    findById (updateById s id f) j =
      if j = id then (findById s id).map f else findById s j := by
  induction s with
  | nil => simp [findById, updateById]
  | cons e t ih =>
    obtain ⟨k, n⟩ := e
    rw [updateById_cons]
    by_cases hk : k = id
    · subst hk
      rw [if_pos rfl]
      by_cases hj : j = k
      · simp [findById, hj]
      · simp [findById, hj, Ne.symm hj, ih]
    · rw [if_neg hk]
      by_cases hj : k = j
      · subst hj
        simp [findById, hk, Ne.symm hk]
      · simp [findById, hk, hj, ih]

theorem findById_removeById (s : DbState) (id j : Nat) :
    findById (removeById s id) j = if j = id then none else findById s j := by
  induction s with
  | nil => simp [findById, removeById]
  | cons e t ih =>
    obtain ⟨k, n⟩ := e
    rw [removeById_cons]
    by_cases hk : k = id
    · subst hk
      rw [if_pos rfl, ih]
      by_cases hj : j = k
      · simp [findById, hj]
      · simp [findById, hj, Ne.symm hj]
    · rw [if_neg hk]
      by_cases hj : k = j
      · subst hj
        simp [findById, hk, Ne.symm hk]
      · simp [findById, hk, hj, ih]

theorem findById_append_of_not_mem {s t : DbState} {id : Nat} (h : id ∉ keys s) :
    findById (s ++ t) id = findById t id := by
  induction s with
  | nil => rfl
  | cons e u ih =>
    obtain ⟨k, n⟩ := e
    rw [keys_cons, List.mem_cons] at h
    push_neg at h
    simp only [List.cons_append, findById]
    rw [if_neg (by simpa using Ne.symm h.1)]
    exact ih h.2

theorem findById_append_of_mem {s t : DbState} {id : Nat} {n : DbNode}
    (h : findById s id = some n) : findById (s ++ t) id = some n := by
  induction s with
  | nil => cases h
  | cons e u ih =>
    obtain ⟨k, m⟩ := e
    by_cases hk : k = id <;> simp_all [findById]

theorem findById_some_mem {s : DbState} {k : Nat} {n : DbNode}
    (h : findById s k = some n) : (k, n) ∈ s := by
  induction s with
  | nil => cases h
  | cons e t ih =>
    obtain ⟨k1, n1⟩ := e
    by_cases hk : k1 = k
    · subst hk
      rw [show findById ((k1, n1) :: t) k1 = some n1 from by simp [findById]] at h
      injection h with h
      subst h
      exact List.mem_cons_self _ _
    · simp only [findById, if_neg hk] at h
      exact List.mem_cons_of_mem _ (ih h)

theorem mem_wf_findById {s : DbState} {k : Nat} {n : DbNode}
    (hwf : wf s) (h : (k, n) ∈ s) : findById s k = some n := by
  induction s with
  | nil => cases h
  | cons e t ih =>
    obtain ⟨k1, n1⟩ := e
    rcases List.mem_cons.mp h with h | h
    · injection h with h1 h2
      subst h1
      subst h2
      simp [findById]
    · have hk : k1 ≠ k := by
        intro hc
        subst hc
        rw [wf, keys_cons] at hwf
        exact (List.nodup_cons.mp hwf).1 (List.mem_map.mpr ⟨(k1, n), h, rfl⟩)
      rw [findById, if_neg hk]
      exact ih (by rw [wf, keys_cons] at hwf; exact (List.nodup_cons.mp hwf).2) h

theorem keys_append (s t : DbState) : keys (s ++ t) = keys s ++ keys t :=
  List.map_append _ _ _

theorem findHead_eq_none_iff {s : DbState} :
    findHead s = none ↔ ∀ k n, (k, n) ∈ s → ¬ n.prev = none := by
  induction s with
  | nil => simp [findHead]
  | cons e t ih =>
    obtain ⟨k1, n1⟩ := e
    by_cases h : n1.prev = none
    · simp only [findHead, if_pos h]
      constructor
      · intro hc
        cases hc
      · intro hall
        exact absurd h (hall k1 n1 (List.mem_cons_self _ _))
    · simp only [findHead, if_neg h, ih]
      constructor
      · intro hall k n hm
        rcases List.mem_cons.mp hm with hm | hm
        · injection hm with h1 h2
          subst h2
          exact h
        · exact hall k n hm
      · intro hall k n hm
        exact hall k n (List.mem_cons_of_mem _ hm)

theorem findHead_some_mem {s : DbState} {k : Nat} {n : DbNode}
    (h : findHead s = some (k, n)) : (k, n) ∈ s ∧ n.prev = none := by
  induction s with
  | nil => cases h
  | cons e t ih =>
    obtain ⟨k1, n1⟩ := e
    by_cases h1 : n1.prev = none
    · rw [findHead, if_pos h1] at h
      injection h with h
      injection h with ha hb
      subst ha
      subst hb
      exact ⟨List.mem_cons_self _ _, h1⟩
    · rw [findHead, if_neg h1] at h
      obtain ⟨hm, hp⟩ := ih h
      exact ⟨List.mem_cons_of_mem _ hm, hp⟩

/-! ## Facts about the expected pointers -/

theorem expBack_nil (p : Option Nat) : expBack p [] = p :=
  rfl

theorem expBack_cons (p : Option Nat) (q : Nat) (t : List Nat) :
    expBack p (q :: t) = expBack (some q) t :=
  rfl

theorem expBack_append (p : Option Nat) (X Y : List Nat) :
    expBack p (X ++ Y) = expBack (expBack p X) Y := by
  induction X generalizing p with
  | nil => rfl
  | cons q t ih => rw [List.cons_append, expBack_cons, expBack_cons, ih]

theorem expBack_concat (p : Option Nat) (X : List Nat) (q : Nat) :
    expBack p (X ++ [q]) = some q := by
  rw [expBack_append]
  rfl

theorem expBack_cons_isSome (q : Nat) (t : List Nat) :
    ∃ r, expBack (some q) t = some r := by
  induction t generalizing q with
  | nil => exact ⟨q, rfl⟩
  | cons x u ih => exact ih x

theorem expBack_none_eq_none {X : List Nat} (h : expBack none X = none) : X = [] := by
  cases X with
  | nil => rfl
  | cons q t =>
    rw [expBack_cons] at h
    obtain ⟨r, hr⟩ := expBack_cons_isSome q t
    rw [hr] at h
    cases h

theorem expBack_eq_some {X : List Nat} {p : Option Nat} {q : Nat}
    (h : expBack p X = some q) : (X = [] ∧ p = some q) ∨ ∃ X2, X = X2 ++ [q] := by
  induction X generalizing p with
  | nil => exact Or.inl ⟨rfl, h⟩
  | cons x t ih =>
    rw [expBack_cons] at h
    rcases ih h with ⟨ht, hp⟩ | ⟨X2, hX2⟩
    · subst ht
      injection hp with hp
      subst hp
      exact Or.inr ⟨[], rfl⟩
    · subst hX2
      exact Or.inr ⟨x :: X2, rfl⟩

theorem expFront_none_eq_head (Y : List Nat) : expFront none Y = Y.head? := by
  cases Y <;> rfl

/-! ## Segments of the doubly-linked chain -/

theorem seg_nil_inv {s : DbState} {p c p2 c2 : Option Nat}
    (h : seg s p c [] p2 c2) : p2 = p ∧ c2 = c := by
  cases h
  exact ⟨rfl, rfl⟩

theorem seg_cons_inv {s : DbState} {p c p2 c2 : Option Nat} {id : Nat} {L : List Nat}
    (h : seg s p c (id :: L) p2 c2) :
    c = some id ∧ ∃ n, findById s id = some n ∧ n.prev = p ∧
      seg s (some id) n.next L p2 c2 := by
  cases h with
  | cons hf hp hrest => exact ⟨rfl, _, hf, hp, hrest⟩

theorem seg_congr {s s2 : DbState} {p c : Option Nat} {L : List Nat} {p2 c2 : Option Nat}
    (h : seg s p c L p2 c2) :
    (∀ id, id ∈ L → findById s2 id = findById s id) → seg s2 p c L p2 c2 := by
  induction h with
  | nil p c => exact fun _ => seg.nil p c
  | cons hf hp hrest ih =>
    intro hfr
    exact seg.cons (by rw [hfr _ (List.mem_cons_self _ _)]; exact hf) hp
      (ih fun id hid => hfr id (List.mem_cons_of_mem _ hid))

theorem seg_append {s : DbState} {p c p1 c1 : Option Nat} {L1 : List Nat}
    (h1 : seg s p c L1 p1 c1) :
    ∀ {L2 : List Nat} {p2 c2 : Option Nat}, seg s p1 c1 L2 p2 c2 →
      seg s p c (L1 ++ L2) p2 c2 := by
  induction h1 with
  | nil p c => exact fun h2 => by simpa using h2
  | cons hf hp hrest ih =>
    intro L2 p2 c2 h2
    rw [List.cons_append]
    exact seg.cons hf hp (ih h2)

theorem seg_split {s : DbState} {p c p2 c2 : Option Nat} {L1 L2 : List Nat}
    (h : seg s p c (L1 ++ L2) p2 c2) :
    ∃ p1 c1, seg s p c L1 p1 c1 ∧ seg s p1 c1 L2 p2 c2 := by
  induction L1 generalizing p c with
  | nil => exact ⟨p, c, seg.nil p c, by simpa using h⟩
  | cons x t ih =>
    rw [List.cons_append] at h
    obtain ⟨hc, n, hf, hp, hrest⟩ := seg_cons_inv h
    obtain ⟨p1, c1, hA, hB⟩ := ih hrest
    subst hc
    exact ⟨p1, c1, seg.cons hf hp hA, hB⟩

theorem seg_last {s : DbState} {p c p2 c2 : Option Nat} {L : List Nat}
    (h : seg s p c L p2 c2) : p2 = expBack p L := by
  induction h with
  | nil p c => rfl
  | cons hf hp hrest ih => rw [expBack_cons]; exact ih

theorem seg_cast_cursor {s : DbState} {p : Option Nat} {c c2 p2 : Option Nat}
    {c' : Option Nat} {L : List Nat} (h : c = c') (hs : seg s p c' L p2 c2) :
    seg s p c L p2 c2 := by
  subst h
  exact hs

theorem seg_at {s : DbState} {p c p2 c2 : Option Nat} {L X Y : List Nat} {id : Nat}
    (h : seg s p c L p2 c2) (hL : L = X ++ id :: Y) :
    ∃ n, findById s id = some n ∧ n.prev = expBack p X ∧ n.next = expFront c2 Y := by
  subst hL
  obtain ⟨p1, c1, hX, hrest⟩ := seg_split h
  obtain ⟨hc1, n, hf, hp, htail⟩ := seg_cons_inv hrest
  refine ⟨n, hf, ?_, ?_⟩
  · rw [hp, seg_last hX]
  · cases Y with
    | nil =>
      obtain ⟨_, hc2⟩ := seg_nil_inv htail
      rw [hc2]
      rfl
    | cons m Y2 =>
      obtain ⟨hm, _⟩ := seg_cons_inv htail
      rw [hm]
      rfl

/-! ## The retry driver -/

theorem withRetryFrom_exhaust {T : Type} (op : Nat → Except JsError T) (a fuel : Nat)
    (hop : ∀ i, i < a + fuel → op i = .error retryError) :
    withRetryFrom op a fuel =
      (.error (conflictError "Could not complete operation after several retries"), fuel) := by
  induction fuel generalizing a with
  | zero => rfl
  | succ fuel ih =>
    have ha : op a = .error retryError := hop a (by omega)
    have hrec := ih (a + 1) (fun i hi => hop i (by omega))
    simp [withRetryFrom, ha, retryError, isConflictError, hrec]

theorem withRetryFrom_error_not_retrySignal {T : Type} (op : Nat → Except JsError T)
    (a fuel : Nat) (e : JsError) (k : Nat)
    (h : withRetryFrom op a fuel = (.error e, k)) : e ≠ retryError := by
  induction fuel generalizing a k with
  | zero =>
    simp only [withRetryFrom] at h
    cases h
    decide
  | succ fuel ih =>
    simp only [withRetryFrom] at h
    cases hop : op a with
    | ok t => rw [hop] at h; cases h
    | error e2 =>
      rw [hop] at h
      by_cases hc : isConflictError e2
      · simp [hc] at h
        obtain ⟨h1, _⟩ := h
        subst h1
        intro habs
        rw [habs] at hc
        simp [isConflictError, retryError] at hc
      · by_cases hm : e2.message = "RETRY"
        · simp [hc, hm] at h
          exact ih (a + 1) (k - 1) (by
            obtain ⟨h1, h2⟩ := h
            cases hr : withRetryFrom op (a + 1) fuel with
            | mk r1 r2 =>
              rw [hr] at h1 h2
              simp at h1 h2
              rw [h1, ← h2]
              simp)
        · simp [hc, hm] at h
          obtain ⟨h1, _⟩ := h
          subst h1
          intro habs
          rw [habs] at hm
          simp [retryError] at hm

theorem withRetryFrom_first_ok {T : Type} (op : Nat → Except JsError T) (a fuel : Nat)
    {t : T} (h0 : op a = .ok t) (hfuel : 0 < fuel) :
    withRetryFrom op a fuel = (.ok t, 1) := by
  cases fuel with
  | zero => omega
  | succ fuel => simp [withRetryFrom, h0]

theorem withRetryFrom_first_conflict {T : Type} (op : Nat → Except JsError T) (a fuel : Nat)
    {e : JsError} (h0 : op a = .error e) (hc : isConflictError e = true) (hfuel : 0 < fuel) :
    withRetryFrom op a fuel = (.error e, 1) := by
  cases fuel with
  | zero => omega
  | succ fuel => simp [withRetryFrom, h0, hc]

theorem withRetryFrom_first_other {T : Type} (op : Nat → Except JsError T) (a fuel : Nat)
    {e : JsError} (h0 : op a = .error e) (hc : isConflictError e = false)
    (hm : e.message ≠ "RETRY") (hfuel : 0 < fuel) :
    withRetryFrom op a fuel = (.error e, 1) := by
  cases fuel with
  | zero => omega
  | succ fuel => simp [withRetryFrom, h0, hc, hm]

/-! ## The list-wide invariants from a chain representation -/

theorem rep_at {s : DbState} {L X Y : List Nat} {id : Nat}
    (hrep : represents s L) (hL : L = X ++ id :: Y) :
    ∃ n, findById s id = some n ∧ n.prev = expBack none X ∧ n.next = Y.head? := by
  obtain ⟨⟨st, p2, hseg⟩, _, _⟩ := hrep
  obtain ⟨n, hf, hp, hn⟩ := seg_at hseg hL
  exact ⟨n, hf, hp, by rw [hn, expFront_none_eq_head]⟩

theorem rep_head_unique {s : DbState} {L : List Nat} (hrep : represents s L) :
    atMostOneHead s := by
  intro id1 id2 n1 n2 h1 h2 hp1 hp2
  obtain ⟨X1, Y1, hL1⟩ := List.append_of_mem ((hrep.2.2 id1).mp (mem_keys_of_findById h1))
  obtain ⟨X2, Y2, hL2⟩ := List.append_of_mem ((hrep.2.2 id2).mp (mem_keys_of_findById h2))
  obtain ⟨m1, hf1, hq1, _⟩ := rep_at hrep hL1
  obtain ⟨m2, hf2, hq2, _⟩ := rep_at hrep hL2
  rw [h1] at hf1
  injection hf1 with hf1
  subst hf1
  rw [h2] at hf2
  injection hf2 with hf2
  subst hf2
  have hX1 : X1 = [] := expBack_none_eq_none (by rw [← hq1, hp1])
  have hX2 : X2 = [] := expBack_none_eq_none (by rw [← hq2, hp2])
  subst hX1
  subst hX2
  rw [List.nil_append] at hL1 hL2
  rw [hL1] at hL2
  cases hL2
  rfl

theorem rep_tail_unique {s : DbState} {L : List Nat} (hrep : represents s L) :
    atMostOneTail s := by
  intro id1 id2 n1 n2 h1 h2 hn1 hn2
  obtain ⟨X1, Y1, hL1⟩ := List.append_of_mem ((hrep.2.2 id1).mp (mem_keys_of_findById h1))
  obtain ⟨X2, Y2, hL2⟩ := List.append_of_mem ((hrep.2.2 id2).mp (mem_keys_of_findById h2))
  obtain ⟨m1, hf1, _, hq1⟩ := rep_at hrep hL1
  obtain ⟨m2, hf2, _, hq2⟩ := rep_at hrep hL2
  rw [h1] at hf1
  injection hf1 with hf1
  subst hf1
  rw [h2] at hf2
  injection hf2 with hf2
  subst hf2
  have hY1 : Y1 = [] := by
    cases Y1 with
    | nil => rfl
    | cons m t => rw [hn1] at hq1; cases hq1
  have hY2 : Y2 = [] := by
    cases Y2 with
    | nil => rfl
    | cons m t => rw [hn2] at hq2; cases hq2
  subst hY1
  subst hY2
  have hg1 : L.getLast? = some id1 := by rw [hL1]; exact List.getLast?_concat _
  have hg2 : L.getLast? = some id2 := by rw [hL2]; exact List.getLast?_concat _
  rw [hg1] at hg2
  cases hg2
  rfl

theorem rep_nextPrevSym {s : DbState} {L : List Nat} (hrep : represents s L) :
    nextPrevSym s := by
  intro id n m h hn
  obtain ⟨X, Y, hL⟩ := List.append_of_mem ((hrep.2.2 id).mp (mem_keys_of_findById h))
  obtain ⟨n0, hf0, _, hq0⟩ := rep_at hrep hL
  rw [h] at hf0
  injection hf0 with hf0
  subst hf0
  cases Y with
  | nil => rw [hn] at hq0; cases hq0
  | cons m2 Y2 =>
    have hm2 : m2 = m := by
      rw [hn] at hq0
      injection hq0 with hq0
      exact hq0.symm
    rw [hm2] at hL
    have hL2 : L = (X ++ [id]) ++ m :: Y2 := by rw [hL, List.append_assoc]; rfl
    obtain ⟨nm, hfm, hpm, _⟩ := rep_at hrep hL2
    exact ⟨nm, hfm, by rw [hpm, expBack_concat]⟩

theorem rep_prevNextSym {s : DbState} {L : List Nat} (hrep : represents s L) :
    prevNextSym s := by
  intro id n q h hq
  obtain ⟨X, Y, hL⟩ := List.append_of_mem ((hrep.2.2 id).mp (mem_keys_of_findById h))
  obtain ⟨n0, hf0, hp0, _⟩ := rep_at hrep hL
  rw [h] at hf0
  injection hf0 with hf0
  subst hf0
  rw [hq] at hp0
  rcases expBack_eq_some hp0.symm with ⟨_, hc⟩ | ⟨X2, hX2⟩
  · cases hc
  · subst hX2
    have hL2 : L = X2 ++ q :: (id :: Y) := by rw [hL, List.append_assoc]; rfl
    obtain ⟨nq, hfq, _, hnq⟩ := rep_at hrep hL2
    exact ⟨nq, hfq, by rw [hnq]; rfl⟩

theorem invFull_of_rep {s : DbState} {L : List Nat} (hwf : wf s)
    (hrep : represents s L) : InvFull s :=
  ⟨hwf, rep_head_unique hrep, rep_tail_unique hrep, rep_nextPrevSym hrep,
   rep_prevNextSym hrep, L, hrep⟩

/-! ## Inversion of successful transactions -/

theorem removeStepPrev_ok_inv {s : DbState} {nodeId : Nat} {d : DbNode}
    {u1 : List (Nat × NodeDelta)} {s1 : DbState}
    (h : removeStepPrev s nodeId d = .ok (u1, s1)) :
    (d.prev = none ∧ u1 = [] ∧ s1 = s) ∨
    ∃ pid p, d.prev = some pid ∧ findById s pid = some p ∧ p.next = some nodeId ∧
      u1 = [(pid, ⟨none, some d.next⟩)] ∧
      s1 = updateById s pid fun n => { n with next := d.next, version := n.version + 1 } := by
  unfold removeStepPrev at h
  cases hp : d.prev with
  | none =>
    simp only [hp] at h
    cases h
    exact Or.inl ⟨rfl, rfl, rfl⟩
  | some pid =>
    simp only [hp] at h
    cases hf : findById s pid with
    | none => simp only [hf] at h; cases h
    | some p =>
      simp only [hf] at h
      unfold findOneAndUpdate at h
      simp only [hf] at h
      by_cases hpred : (p.version == p.version && p.next == some nodeId) = true
      · rw [if_pos hpred] at h
        cases h
        refine Or.inr ⟨pid, p, rfl, hf, ?_, rfl, rfl⟩
        simp only [Bool.and_eq_true, beq_iff_eq] at hpred
        exact hpred.2
      · rw [if_neg hpred] at h
        cases h

theorem removeStepNext_ok_inv {s : DbState} {nodeId : Nat} {d : DbNode}
    {u2 : List (Nat × NodeDelta)} {s1 : DbState}
    (h : removeStepNext s nodeId d = .ok (u2, s1)) :
    (d.next = none ∧ u2 = [] ∧ s1 = s) ∨
    ∃ nid q, d.next = some nid ∧ findById s nid = some q ∧ q.prev = some nodeId ∧
      u2 = [(nid, ⟨some d.prev, none⟩)] ∧
      s1 = updateById s nid fun n => { n with prev := d.prev, version := n.version + 1 } := by
  unfold removeStepNext at h
  cases hp : d.next with
  | none =>
    simp only [hp] at h
    cases h
    exact Or.inl ⟨rfl, rfl, rfl⟩
  | some nid =>
    simp only [hp] at h
    cases hf : findById s nid with
    | none => simp only [hf] at h; cases h
    | some q =>
      simp only [hf] at h
      unfold findOneAndUpdate at h
      simp only [hf] at h
      by_cases hpred : (q.version == q.version && q.prev == some nodeId) = true
      · rw [if_pos hpred] at h
        cases h
        refine Or.inr ⟨nid, q, rfl, hf, ?_, rfl, rfl⟩
        simp only [Bool.and_eq_true, beq_iff_eq] at hpred
        exact hpred.2
      · rw [if_neg hpred] at h
        cases h

theorem removeNode_ok_inv {s : DbState} {nodeId : Nat} {r : RemoveResult} {s3 : DbState}
    (h : removeNode s nodeId = .ok (r, s3)) :
    ∃ d u1 s1 u2 s2 dd,
      findById s nodeId = some d ∧
      removeStepPrev s nodeId d = .ok (u1, s1) ∧
      removeStepNext s1 nodeId d = .ok (u2, s2) ∧
      findById s2 nodeId = some dd ∧ dd.version = d.version ∧
      r = ⟨nodeId, u1 ++ u2⟩ ∧ s3 = removeById s2 nodeId := by
  unfold removeNode at h
  cases hd : findById s nodeId with
  | none => simp only [hd] at h; cases h
  | some d =>
    simp only [hd] at h
    cases h1 : removeStepPrev s nodeId d with
    | error e => simp only [h1] at h; cases h
    | ok us1 =>
      obtain ⟨u1, s1⟩ := us1
      simp only [h1] at h
      cases h2 : removeStepNext s1 nodeId d with
      | error e => simp only [h2] at h; cases h
      | ok us2 =>
        obtain ⟨u2, s2⟩ := us2
        simp only [h2] at h
        unfold findOneAndDelete at h
        cases hdd : findById s2 nodeId with
        | none => simp only [hdd] at h; cases h
        | some dd =>
          simp only [hdd] at h
          by_cases hv : (dd.version == d.version) = true
          · rw [if_pos hv] at h
            cases h
            exact ⟨d, u1, s1, u2, s2, dd, rfl, h1, h2, hdd, by simpa using hv, rfl, rfl⟩
          · rw [if_neg hv] at h
            cases h

theorem insertAtHead_ok_inv {s : DbState} {c : Nat} {r : AddResult} {s2 : DbState}
    (h : insertAtHead s c = .ok (r, s2)) :
    (findHead s = none ∧ r = ⟨c, ⟨none, none, 0⟩, []⟩ ∧
      s2 = s ++ [(c, ⟨none, none, 0⟩)]) ∨
    ∃ hid hnode n0, findHead s = some (hid, hnode) ∧ findById s hid = some n0 ∧
      n0.prev = none ∧ n0.version = hnode.version ∧
      r = ⟨c, ⟨none, some hid, 0⟩, [(hid, ⟨some (some c), none⟩)]⟩ ∧
      s2 = updateById s hid (fun n => { n with prev := some c, version := n.version + 1 })
        ++ [(c, ⟨none, some hid, 0⟩)] := by
  unfold insertAtHead at h
  cases hh : findHead s with
  | none =>
    simp only [hh] at h
    cases h
    exact Or.inl ⟨rfl, rfl, rfl⟩
  | some e =>
    obtain ⟨hid, hnode⟩ := e
    simp only [hh] at h
    unfold findOneAndUpdate at h
    cases hf : findById s hid with
    | none =>
      simp only [hf] at h
      cases h
    | some n0 =>
      simp only [hf] at h
      by_cases hpred : (n0.prev == none && n0.version == hnode.version) = true
      · rw [if_pos hpred] at h
        cases h
        simp only [Bool.and_eq_true, beq_iff_eq] at hpred
        exact Or.inr ⟨hid, hnode, n0, rfl, hf, hpred.1, hpred.2, rfl, rfl⟩
      · rw [if_neg hpred] at h
        cases h

theorem insertAfter_ok_inv {s : DbState} {a c : Nat} {r : AddResult} {s2 : DbState}
    (h : insertAfter s a c = .ok (r, s2)) :
    ∃ A, findById s a = some A ∧
      ((A.next = none ∧
        r = ⟨c, ⟨some a, none, 0⟩, [(a, ⟨none, some (some c)⟩)]⟩ ∧
        s2 = updateById s a (fun n => { n with next := some c, version := n.version + 1 })
          ++ [(c, ⟨some a, none, 0⟩)]) ∨
       ∃ b B1, A.next = some b ∧
         findById (updateById s a
           (fun n => { n with next := some c, version := n.version + 1 })) b = some B1 ∧
         B1.prev = some a ∧
         r = ⟨c, ⟨some a, some b, 0⟩,
               [(a, ⟨none, some (some c)⟩), (b, ⟨some (some c), none⟩)]⟩ ∧
         s2 = updateById (updateById s a
             (fun n => { n with next := some c, version := n.version + 1 })) b
             (fun n => { n with prev := some c, version := n.version + 1 })
           ++ [(c, ⟨some a, some b, 0⟩)]) := by
  unfold insertAfter at h
  cases hfa : findById s a with
  | none =>
    simp only [hfa] at h
    cases h
  | some A =>
    simp only [hfa] at h
    unfold findOneAndUpdate at h
    simp only [hfa] at h
    rw [if_pos (by simp)] at h
    cases hnx : A.next with
    | none =>
      simp only [hnx] at h
      cases h
      exact ⟨A, rfl, Or.inl ⟨hnx, rfl, rfl⟩⟩
    | some b =>
      simp only [hnx] at h
      cases hfb : findById (updateById s a
          fun n => { n with next := some c, version := n.version + 1 }) b with
      | none =>
        simp only [hfb] at h
        cases h
      | some B1 =>
        simp only [hfb] at h
        by_cases hpred : (B1.version == B1.version && B1.prev == some a) = true
        · rw [if_pos hpred] at h
          cases h
          simp only [Bool.and_eq_true, beq_iff_eq] at hpred
          exact ⟨A, rfl, Or.inr ⟨b, B1, hnx, hfb, hpred.2, rfl, rfl⟩⟩
        · rw [if_neg hpred] at h
          cases h

theorem removeNode_ok_deleted {s : DbState} {b : Nat} {r : RemoveResult} {s2 : DbState}
    (h : removeNode s b = .ok (r, s2)) : findById s2 b = none := by
  obtain ⟨d, u1, s1, u2, s2x, dd, _, _, _, _, _, _, hs⟩ := removeNode_ok_inv h
  rw [hs, findById_removeById]
  simp

/-! ## Preservation of the chain representation -/

theorem mem_keys_iff_findById {s : DbState} {j : Nat} :
    j ∈ keys s ↔ ¬ findById s j = none := by
  rw [findById_eq_none_iff]
  exact not_not.symm

theorem mem_keys_removeById {s : DbState} {b j : Nat} :
    j ∈ keys (removeById s b) ↔ j ∈ keys s ∧ j ≠ b := by
  by_cases hj : j = b
  · subst hj
    simp [mem_keys_iff_findById, findById_removeById]
  · simp [mem_keys_iff_findById, findById_removeById, hj]

theorem wf_removeById {s : DbState} (hwf : wf s) (b : Nat) : wf (removeById s b) :=
  List.Nodup.sublist ((List.filter_sublist s).map Prod.fst) hwf

theorem wf_append_fresh {s : DbState} {c : Nat} (hwf : wf s) (hc : c ∉ keys s) (C : DbNode) :
    wf (s ++ [(c, C)]) := by
  rw [wf, keys_append, List.nodup_append]
  refine ⟨hwf, by simp [keys], ?_⟩
  intro a ha hb
  simp only [keys, List.map_cons, List.map_nil, List.mem_singleton] at hb
  subst hb
  exact hc ha

theorem cover_nodup_insert {s s2 : DbState} {L L2 : List Nat} {c : Nat}
    (hcov : ∀ id, id ∈ keys s ↔ id ∈ L) (hc : c ∉ keys s) (hnodup : L.Nodup)
    (hkeys : keys s2 = keys s ++ [c]) (hperm : L2.Perm (c :: L)) :
    L2.Nodup ∧ ∀ id, id ∈ keys s2 ↔ id ∈ L2 := by
  have hcL : c ∉ L := fun h => hc ((hcov c).mpr h)
  constructor
  · exact (List.Perm.nodup_iff hperm).mpr (List.nodup_cons.mpr ⟨hcL, hnodup⟩)
  · intro id
    rw [hkeys, List.mem_append, hperm.mem_iff]
    constructor
    · intro h
      rcases h with h | h
      · exact List.mem_cons_of_mem _ ((hcov id).mp h)
      · rw [List.mem_singleton] at h
        subst h
        exact List.mem_cons_self _ _
    · intro h
      rcases List.mem_cons.mp h with h | h
      · subst h
        exact Or.inr (List.mem_singleton.mpr rfl)
      · exact Or.inl ((hcov id).mpr h)

theorem findById_update1_append {s : DbState} {a c : Nat} {fA : DbNode → DbNode}
    {C : DbNode} {id : Nat} (hia : id ≠ a) (hic : id ≠ c) :
    findById (updateById s a fA ++ [(c, C)]) id = findById s id := by
  by_cases hmem : id ∈ keys s
  · obtain ⟨n, hn⟩ := findById_isSome_of_mem_keys hmem
    rw [findById_append_of_mem (show findById (updateById s a fA) id = some n by
      rw [findById_updateById, if_neg hia]; exact hn), hn]
  · rw [findById_append_of_not_mem (by rw [keys_updateById]; exact hmem)]
    rw [findById, if_neg (fun h => hic h.symm)]
    rw [show (findById [] id : Option DbNode) = none from rfl]
    exact (findById_eq_none_iff.mpr hmem).symm

theorem findById_update2_append {s : DbState} {a b c : Nat} {fA fB : DbNode → DbNode}
    {C : DbNode} {id : Nat} (hia : id ≠ a) (hib : id ≠ b) (hic : id ≠ c) :
    findById (updateById (updateById s a fA) b fB ++ [(c, C)]) id = findById s id := by
  by_cases hmem : id ∈ keys s
  · obtain ⟨n, hn⟩ := findById_isSome_of_mem_keys hmem
    rw [findById_append_of_mem (show findById (updateById (updateById s a fA) b fB) id =
      some n by
        rw [findById_updateById, if_neg hib, findById_updateById, if_neg hia]
        exact hn), hn]
  · rw [findById_append_of_not_mem (by rw [keys_updateById, keys_updateById]; exact hmem)]
    rw [findById, if_neg (fun h => hic h.symm)]
    rw [show (findById [] id : Option DbNode) = none from rfl]
    exact (findById_eq_none_iff.mpr hmem).symm

theorem insertAtHead_preserves {s : DbState} {c : Nat} {r : AddResult} {s2 : DbState}
    {L : List Nat} (hwf : wf s) (hrep : represents s L) (hc : c ∉ keys s)
    (hok : insertAtHead s c = .ok (r, s2)) :
    wf s2 ∧ ∃ L2, represents s2 L2 := by
  obtain ⟨hchain, hnodup, hcov⟩ := hrep
  rcases insertAtHead_ok_inv hok with ⟨hh, hr, hs2⟩ |
    ⟨hid, hnode, n0, hh, hf, hp0, hv0, hr, hs2⟩
  · have hsnil : s = [] := by
      cases hL : L with
      | nil =>
        subst hL
        have hks : keys s = [] := by
          cases hk : keys s with
          | nil => rfl
          | cons x t =>
            exfalso
            have hx : x ∈ keys s := by rw [hk]; exact List.mem_cons_self _ _
            exact absurd ((hcov x).mp hx) (List.not_mem_nil x)
        exact List.map_eq_nil_iff.mp hks
      | cons h0 T =>
        exfalso
        obtain ⟨n, hfn, hpn, _⟩ := rep_at ⟨hchain, hnodup, hcov⟩
          (show L = [] ++ h0 :: T from by rw [hL]; rfl)
        exact (findHead_eq_none_iff.mp hh) h0 n (findById_some_mem hfn)
          (by rw [hpn]; rfl)
    subst hsnil
    subst hs2
    refine ⟨by simp [wf, keys], [c], ⟨some c, some c, ?_⟩, by simp, ?_⟩
    · exact seg.cons
        (show findById ([] ++ [(c, (⟨none, none, 0⟩ : DbNode))]) c =
          some ⟨none, none, 0⟩ from by simp [findById])
        rfl (seg.nil (some c) none)
    · intro id
      constructor
      · intro hm
        simp only [keys, List.nil_append, List.map_cons, List.map_nil,
          List.mem_singleton] at hm
        simp [hm]
      · intro hm
        simp only [List.mem_singleton] at hm
        simp [keys, hm]
  · have hmem : hid ∈ L := (hcov hid).mp (mem_keys_of_findById hf)
    obtain ⟨X, Y, hL⟩ := List.append_of_mem hmem
    obtain ⟨n0', hf0, hp0', hn0'⟩ := rep_at ⟨hchain, hnodup, hcov⟩ hL
    rw [hf] at hf0
    injection hf0 with hf0
    subst hf0
    have hX : X = [] := expBack_none_eq_none (by rw [← hp0', hp0])
    subst hX
    rw [List.nil_append] at hL
    subst hs2
    have hkeys2 : keys (updateById s hid
        (fun n => { n with prev := some c, version := n.version + 1 })
        ++ [(c, (⟨none, some hid, 0⟩ : DbNode))]) = keys s ++ [c] := by
      rw [keys_append, keys_updateById]
      rfl
    have hwf2 : wf (updateById s hid
        (fun n => { n with prev := some c, version := n.version + 1 })
        ++ [(c, (⟨none, some hid, 0⟩ : DbNode))]) := by
      rw [wf, hkeys2, List.nodup_append]
      refine ⟨hwf, by simp, ?_⟩
      intro a ha hb
      rw [List.mem_singleton] at hb
      subst hb
      exact hc ha
    refine ⟨hwf2, c :: L, ?_, ?_, ?_⟩
    · have hC : findById (updateById s hid
          (fun n => { n with prev := some c, version := n.version + 1 })
          ++ [(c, (⟨none, some hid, 0⟩ : DbNode))]) c = some ⟨none, some hid, 0⟩ := by
        rw [findById_append_of_not_mem (by rw [keys_updateById]; exact hc)]
        simp [findById]
      have hHid : findById (updateById s hid
          (fun n => { n with prev := some c, version := n.version + 1 })
          ++ [(c, (⟨none, some hid, 0⟩ : DbNode))]) hid =
          some ⟨some c, n0.next, n0.version + 1⟩ := by
        apply findById_append_of_mem
        rw [findById_updateById, if_pos rfl, hf]
        rfl
      have hframe : ∀ id, id ∈ Y → findById (updateById s hid
          (fun n => { n with prev := some c, version := n.version + 1 })
          ++ [(c, (⟨none, some hid, 0⟩ : DbNode))]) id = findById s id := by
        intro id hidY
        have hid_ne : id ≠ hid := by
          intro hc2
          have := (List.nodup_cons.mp (hL ▸ hnodup)).1
          exact this (hc2 ▸ hidY)
        obtain ⟨n, hn⟩ := findById_isSome_of_mem_keys
          ((hcov id).mpr (by rw [hL]; exact List.mem_cons_of_mem _ hidY))
        rw [findById_append_of_mem (show findById (updateById s hid
          (fun n => { n with prev := some c, version := n.version + 1 })) id = some n by
            rw [findById_updateById, if_neg hid_ne]; exact hn), hn]
      obtain ⟨st, p2, hseg⟩ := hchain
      rw [hL] at hseg
      obtain ⟨hst, nn, hfn, hpn, hrest⟩ := seg_cons_inv hseg
      rw [hf] at hfn
      injection hfn with hfn
      subst hfn
      have hrest2 := seg_congr hrest hframe
      refine ⟨some c, p2, ?_⟩
      rw [hL]
      exact seg.cons hC rfl (seg.cons hHid rfl hrest2)
    · rw [List.nodup_cons]
      exact ⟨fun hcL => hc ((hcov c).mpr hcL), hnodup⟩
    · intro id
      rw [mem_keys_iff_findById]
      constructor
      · intro hm
        by_cases hidc : id = c
        · simp [hidc]
        · rw [List.mem_cons]
          refine Or.inr ((hcov id).mp ?_)
          rw [mem_keys_iff_findById]
          intro hnone
          apply hm
          rw [findById_append_of_not_mem, findById, if_neg (fun hcc => hidc hcc.symm)]
          · rfl
          · rw [keys_updateById]
            rw [findById_eq_none_iff] at hnone
            exact hnone
      · intro hm
        rcases List.mem_cons.mp hm with hm | hm
        · subst hm
          rw [findById_append_of_not_mem (by rw [keys_updateById]; exact hc)]
          simp [findById]
        · obtain ⟨n, hn⟩ := findById_isSome_of_mem_keys ((hcov id).mpr hm)
          by_cases hidh : id = hid
          · subst hidh
            rw [findById_append_of_mem (show findById (updateById s id
              (fun n => { n with prev := some c, version := n.version + 1 })) id =
                some ⟨some c, n0.next, n0.version + 1⟩ by
                  rw [findById_updateById, if_pos rfl, hf]; rfl)]
            intro hcontra
            cases hcontra
          · rw [findById_append_of_mem (show findById (updateById s hid
              (fun n => { n with prev := some c, version := n.version + 1 })) id =
                some n by rw [findById_updateById, if_neg hidh]; exact hn)]
            intro hcontra
            cases hcontra

theorem insertAfter_preserves {s : DbState} {a c : Nat} {r : AddResult} {s2 : DbState}
    {L : List Nat} (hwf : wf s) (hrep : represents s L) (hc : c ∉ keys s)
    (hok : insertAfter s a c = .ok (r, s2)) :
    wf s2 ∧ ∃ L2, represents s2 L2 := by
  obtain ⟨hchain, hnodup, hcov⟩ := hrep
  obtain ⟨A, hfa, hcase⟩ := insertAfter_ok_inv hok
  have hmemA : a ∈ L := (hcov a).mp (mem_keys_of_findById hfa)
  obtain ⟨X, Y, hL⟩ := List.append_of_mem hmemA
  obtain ⟨st, p2, hseg⟩ := hchain
  rw [hL] at hseg
  obtain ⟨p1, c1, hsegX, hsegaY⟩ := seg_split hseg
  obtain ⟨hc1, A', hfa2, hpA, hrestY⟩ := seg_cons_inv hsegaY
  rw [hfa] at hfa2
  injection hfa2 with hfa2
  subst hfa2
  subst hc1
  have hndL := hnodup
  rw [hL, List.nodup_append] at hndL
  obtain ⟨hndX, hndaY, hdisj⟩ := hndL
  have haX : a ∉ X := fun hax => hdisj hax (List.mem_cons_self _ _)
  have haY : a ∉ Y := (List.nodup_cons.mp hndaY).1
  have hcL : c ∉ L := fun h => hc ((hcov c).mpr h)
  have hcX : c ∉ X := fun h => hcL (by rw [hL]; exact List.mem_append_left _ h)
  have hca : c ≠ a := fun h => hcL (h ▸ hmemA)
  rcases hcase with ⟨hnone, hr, hs2⟩ | ⟨b, B1, hnext, hfb, hpb, hr, hs2⟩
  · have hY : Y = [] := by
      cases Y with
      | nil => rfl
      | cons m t =>
        obtain ⟨hm, _⟩ := seg_cons_inv hrestY
        rw [hnone] at hm
        cases hm
    subst hY
    subst hs2
    have hkeys2 : keys (updateById s a
        (fun n => { n with next := some c, version := n.version + 1 })
        ++ [(c, (⟨some a, none, 0⟩ : DbNode))]) = keys s ++ [c] := by
      rw [keys_append, keys_updateById]
      rfl
    have hwf2 : wf (updateById s a
        (fun n => { n with next := some c, version := n.version + 1 })
        ++ [(c, (⟨some a, none, 0⟩ : DbNode))]) :=
      wf_append_fresh (by rw [wf, keys_updateById]; exact hwf)
        (by rw [keys_updateById]; exact hc) _
    have hperm : (X ++ a :: [c]).Perm (c :: L) := by
      rw [hL]
      have := @List.perm_middle Nat c (X ++ [a]) []
      simpa using this
    have hframeX : ∀ id, id ∈ X → findById (updateById s a
        (fun n => { n with next := some c, version := n.version + 1 })
        ++ [(c, (⟨some a, none, 0⟩ : DbNode))]) id = findById s id := by
      intro id hidX
      exact findById_update1_append (fun h => haX (h ▸ hidX)) (fun h => hcX (h ▸ hidX))
    have hA2 : findById (updateById s a
        (fun n => { n with next := some c, version := n.version + 1 })
        ++ [(c, (⟨some a, none, 0⟩ : DbNode))]) a =
        some ⟨A.prev, some c, A.version + 1⟩ := by
      apply findById_append_of_mem
      rw [findById_updateById, if_pos rfl, hfa]
      rfl
    have hC2 : findById (updateById s a
        (fun n => { n with next := some c, version := n.version + 1 })
        ++ [(c, (⟨some a, none, 0⟩ : DbNode))]) c = some ⟨some a, none, 0⟩ := by
      rw [findById_append_of_not_mem (by rw [keys_updateById]; exact hc)]
      simp [findById]
    obtain ⟨hnd2, hcov2⟩ := cover_nodup_insert hcov hc hnodup hkeys2 hperm
    refine ⟨hwf2, X ++ a :: [c], ⟨st, some c, ?_⟩, hnd2, hcov2⟩
    exact seg_append (seg_congr hsegX hframeX)
      (seg.cons hA2 hpA (seg.cons hC2 rfl (seg.nil (some c) none)))
  · obtain ⟨Y2, hY⟩ : ∃ Y2, Y = b :: Y2 := by
      cases Y with
      | nil =>
        obtain ⟨_, hcn⟩ := seg_nil_inv hrestY
        rw [hnext] at hcn
        cases hcn
      | cons m t =>
        obtain ⟨hm, _⟩ := seg_cons_inv hrestY
        rw [hnext] at hm
        injection hm with hm
        exact ⟨t, by rw [hm]⟩
    subst hY
    obtain ⟨hcb, B, hfB, hpB, hrestY2⟩ := seg_cons_inv hrestY
    have hba : b ≠ a := fun h => haY (h ▸ List.mem_cons_self b Y2)
    have hfb2 : findById (updateById s a
        (fun n => { n with next := some c, version := n.version + 1 })) b =
        findById s b := by
      rw [findById_updateById, if_neg hba]
    rw [hfb2, hfB] at hfb
    injection hfb with hfb
    subst hfb
    have hbX : b ∉ X := fun h => hdisj h (List.mem_cons_of_mem _ (List.mem_cons_self _ _))
    have hbY2 : b ∉ Y2 := (List.nodup_cons.mp (List.nodup_cons.mp hndaY).2).1
    have hcb2 : c ≠ b := fun h => hcL (by
      rw [hL, h]
      exact List.mem_append_right _ (List.mem_cons_of_mem _ (List.mem_cons_self _ _)))
    subst hs2
    have hkeys2 : keys (updateById (updateById s a
        (fun n => { n with next := some c, version := n.version + 1 })) b
        (fun n => { n with prev := some c, version := n.version + 1 })
        ++ [(c, (⟨some a, some b, 0⟩ : DbNode))]) = keys s ++ [c] := by
      rw [keys_append, keys_updateById, keys_updateById]
      rfl
    have hwf2 : wf (updateById (updateById s a
        (fun n => { n with next := some c, version := n.version + 1 })) b
        (fun n => { n with prev := some c, version := n.version + 1 })
        ++ [(c, (⟨some a, some b, 0⟩ : DbNode))]) :=
      wf_append_fresh (by rw [wf, keys_updateById, keys_updateById]; exact hwf)
        (by rw [keys_updateById, keys_updateById]; exact hc) _
    have hperm : (X ++ a :: c :: b :: Y2).Perm (c :: L) := by
      rw [hL]
      have := @List.perm_middle Nat c (X ++ [a]) (b :: Y2)
      simpa using this
    have hframeX : ∀ id, id ∈ X → findById (updateById (updateById s a
        (fun n => { n with next := some c, version := n.version + 1 })) b
        (fun n => { n with prev := some c, version := n.version + 1 })
        ++ [(c, (⟨some a, some b, 0⟩ : DbNode))]) id = findById s id := by
      intro id hidX
      exact findById_update2_append (fun h => haX (h ▸ hidX)) (fun h => hbX (h ▸ hidX))
        (fun h => hcX (h ▸ hidX))
    have hframeY2 : ∀ id, id ∈ Y2 → findById (updateById (updateById s a
        (fun n => { n with next := some c, version := n.version + 1 })) b
        (fun n => { n with prev := some c, version := n.version + 1 })
        ++ [(c, (⟨some a, some b, 0⟩ : DbNode))]) id = findById s id := by
      intro id hidY
      have hida : id ≠ a := fun h => haY (h ▸ List.mem_cons_of_mem _ hidY)
      have hidb : id ≠ b := fun h => hbY2 (h ▸ hidY)
      have hidc : id ≠ c := fun h => hcL (by
        rw [hL, ← h]
        exact List.mem_append_right _
          (List.mem_cons_of_mem _ (List.mem_cons_of_mem _ hidY)))
      exact findById_update2_append hida hidb hidc
    have hA2 : findById (updateById (updateById s a
        (fun n => { n with next := some c, version := n.version + 1 })) b
        (fun n => { n with prev := some c, version := n.version + 1 })
        ++ [(c, (⟨some a, some b, 0⟩ : DbNode))]) a =
        some ⟨A.prev, some c, A.version + 1⟩ := by
      apply findById_append_of_mem
      rw [findById_updateById, if_neg (fun h => hba h.symm), findById_updateById,
        if_pos rfl, hfa]
      rfl
    have hC2 : findById (updateById (updateById s a
        (fun n => { n with next := some c, version := n.version + 1 })) b
        (fun n => { n with prev := some c, version := n.version + 1 })
        ++ [(c, (⟨some a, some b, 0⟩ : DbNode))]) c = some ⟨some a, some b, 0⟩ := by
      rw [findById_append_of_not_mem (by rw [keys_updateById, keys_updateById]; exact hc)]
      simp [findById]
    have hB2 : findById (updateById (updateById s a
        (fun n => { n with next := some c, version := n.version + 1 })) b
        (fun n => { n with prev := some c, version := n.version + 1 })
        ++ [(c, (⟨some a, some b, 0⟩ : DbNode))]) b =
        some ⟨some c, B.next, B.version + 1⟩ := by
      apply findById_append_of_mem
      rw [findById_updateById, if_pos rfl, findById_updateById, if_neg hba, hfB]
      rfl
    obtain ⟨hnd2, hcov2⟩ := cover_nodup_insert hcov hc hnodup hkeys2 hperm
    refine ⟨hwf2, X ++ a :: c :: b :: Y2, ⟨st, p2, ?_⟩, hnd2, hcov2⟩
    exact seg_append (seg_congr hsegX hframeX)
      (seg.cons hA2 hpA (seg.cons hC2 rfl
        (seg.cons hB2 rfl (seg_congr hrestY2 hframeY2))))

theorem findById_remove_update1 {s : DbState} {k1 b id : Nat} {f1 : DbNode → DbNode}
    (h1 : id ≠ k1) (hb : id ≠ b) :
    findById (removeById (updateById s k1 f1) b) id = findById s id := by
  rw [findById_removeById, if_neg hb, findById_updateById, if_neg h1]

theorem findById_remove_update2 {s : DbState} {k1 k2 b id : Nat} {f1 f2 : DbNode → DbNode}
    (h1 : id ≠ k1) (h2 : id ≠ k2) (hb : id ≠ b) :
    findById (removeById (updateById (updateById s k1 f1) k2 f2) b) id = findById s id := by
  rw [findById_removeById, if_neg hb, findById_updateById, if_neg h2,
    findById_updateById, if_neg h1]

theorem cover_nodup_remove {s s3 : DbState} {L X Y : List Nat} {b : Nat}
    (hcov : ∀ id, id ∈ keys s ↔ id ∈ L) (hL : L = X ++ b :: Y) (hnodup : L.Nodup)
    (hkeys : ∀ id, id ∈ keys s3 ↔ id ∈ keys s ∧ id ≠ b) :
    (X ++ Y).Nodup ∧ ∀ id, id ∈ keys s3 ↔ id ∈ X ++ Y := by
  subst hL
  rw [List.nodup_append] at hnodup
  obtain ⟨hndX, hndbY, hdisj⟩ := hnodup
  have hbX : b ∉ X := fun h => hdisj h (List.mem_cons_self _ _)
  have hbY : b ∉ Y := (List.nodup_cons.mp hndbY).1
  constructor
  · rw [List.nodup_append]
    exact ⟨hndX, (List.nodup_cons.mp hndbY).2,
      fun a ha hb2 => hdisj ha (List.mem_cons_of_mem _ hb2)⟩
  · intro id
    rw [hkeys, hcov, List.mem_append, List.mem_append, List.mem_cons]
    constructor
    · intro ⟨hm, hne⟩
      rcases hm with hm | hm | hm
      · exact Or.inl hm
      · exact absurd hm hne
      · exact Or.inr hm
    · intro hm
      rcases hm with hm | hm
      · exact ⟨Or.inl hm, fun h => hbX (h ▸ hm)⟩
      · exact ⟨Or.inr (Or.inr hm), fun h => hbY (h ▸ hm)⟩

theorem removeNode_preserves {s : DbState} {b : Nat} {r : RemoveResult} {s3 : DbState}
    {L : List Nat} (hwf : wf s) (hrep : represents s L)
    (hok : removeNode s b = .ok (r, s3)) :
    wf s3 ∧ ∃ L2, represents s3 L2 := by
  obtain ⟨hchain, hnodup, hcov⟩ := hrep
  obtain ⟨d, u1, s1, u2, s2x, dd, hfd, hstep1, hstep2, hfdd, hvdd, hr, hs3⟩ :=
    removeNode_ok_inv hok
  have hmemb : b ∈ L := (hcov b).mp (mem_keys_of_findById hfd)
  obtain ⟨X, Y, hL⟩ := List.append_of_mem hmemb
  obtain ⟨st, p2, hseg⟩ := hchain
  rw [hL] at hseg
  obtain ⟨p1, c1, hsegX, hsegbY⟩ := seg_split hseg
  obtain ⟨hc1, d', hfd2, hpd, hrestY⟩ := seg_cons_inv hsegbY
  rw [hfd] at hfd2
  injection hfd2 with hfd2
  subst hfd2
  subst hc1
  have hndL := hnodup
  rw [hL, List.nodup_append] at hndL
  obtain ⟨hndX, hndbY, hdisj⟩ := hndL
  have hbX : b ∉ X := fun h => hdisj h (List.mem_cons_self _ _)
  have hbY : b ∉ Y := (List.nodup_cons.mp hndbY).1
  have hp1 : p1 = expBack none X := seg_last hsegX
  rcases removeStepPrev_ok_inv hstep1 with ⟨hdp, hu1, hs1⟩ |
    ⟨pid, p, hdp, hfp, hpnext, hu1, hs1⟩
  · -- d.prev = none : X = []
    have hX : X = [] := by
      apply expBack_none_eq_none
      rw [← hp1, ← hpd, hdp]
    subst hX
    rw [hs1] at hstep2
    rcases removeStepNext_ok_inv hstep2 with ⟨hdn, hu2, hs2⟩ |
      ⟨nid, q, hdn, hfq, hqprev, hu2, hs2⟩
    · -- both branches empty: single node list
      have hY : Y = [] := by
        cases Y with
        | nil => rfl
        | cons m t =>
          obtain ⟨hm, _⟩ := seg_cons_inv hrestY
          rw [hdn] at hm
          cases hm
      subst hY
      rw [hs2] at hs3
      subst hs3
      have hkeys3 : ∀ id, id ∈ keys (removeById s b) ↔ id ∈ keys s ∧ id ≠ b :=
        fun id => mem_keys_removeById
      obtain ⟨hnd2, hcov2⟩ := cover_nodup_remove hcov hL hnodup hkeys3
      exact ⟨wf_removeById hwf b, [], ⟨none, none, seg.nil none none⟩, hnd2, hcov2⟩
    · -- no predecessor, successor nid
      obtain ⟨Y2, hY⟩ : ∃ Y2, Y = nid :: Y2 := by
        cases Y with
        | nil =>
          obtain ⟨_, hcn⟩ := seg_nil_inv hrestY
          rw [hdn] at hcn
          cases hcn
        | cons m t =>
          obtain ⟨hm, _⟩ := seg_cons_inv hrestY
          rw [hdn] at hm
          injection hm with hm
          exact ⟨t, by rw [hm]⟩
      subst hY
      obtain ⟨hcn, N, hfN, hpN, hrestY2⟩ := seg_cons_inv hrestY
      rw [hfN] at hfq
      injection hfq with hfq
      subst hfq
      have hnb : nid ≠ b := fun h => hbY (h ▸ List.mem_cons_self _ _)
      have hnY2 : nid ∉ Y2 := (List.nodup_cons.mp (List.nodup_cons.mp hndbY).2).1
      subst hs2
      subst hs3
      have hkeys3 : ∀ id, id ∈ keys (removeById (updateById s nid
          (fun n => { n with prev := d.prev, version := n.version + 1 })) b) ↔
          id ∈ keys s ∧ id ≠ b := by
        intro id
        rw [mem_keys_removeById, keys_updateById]
      obtain ⟨hnd2, hcov2⟩ := cover_nodup_remove hcov hL hnodup hkeys3
      have hN2 : findById (removeById (updateById s nid
          (fun n => { n with prev := d.prev, version := n.version + 1 })) b) nid =
          some ⟨d.prev, N.next, N.version + 1⟩ := by
        rw [findById_removeById, if_neg hnb, findById_updateById, if_pos rfl, hfN]
        rfl
      have hframe : ∀ id, id ∈ Y2 → findById (removeById (updateById s nid
          (fun n => { n with prev := d.prev, version := n.version + 1 })) b) id =
          findById s id := by
        intro id hidY
        have hidn : id ≠ nid := fun h => hnY2 (h ▸ hidY)
        have hidb : id ≠ b := fun h =>
          hbY (h ▸ List.mem_cons_of_mem _ hidY)
        exact findById_remove_update1 hidn hidb
      refine ⟨wf_removeById (by rw [wf, keys_updateById]; exact hwf) b,
        nid :: Y2, ⟨some nid, p2, ?_⟩, hnd2, hcov2⟩
      refine seg.cons hN2 ?_ (seg_congr hrestY2 hframe)
      show d.prev = none
      rw [hdp]
  · -- predecessor pid : X = X2 ++ [pid]
    obtain ⟨X2, hX⟩ : ∃ X2, X = X2 ++ [pid] := by
      rcases expBack_eq_some (show expBack none X = some pid by
        rw [← hp1, ← hpd, hdp]) with ⟨_, hcontra⟩ | h
      · cases hcontra
      · exact h
    subst hX
    obtain ⟨q1, c1', hsegX2, hsegP⟩ := seg_split hsegX
    obtain ⟨hc1', P0, hfP0, hpP0, hrestP⟩ := seg_cons_inv hsegP
    obtain ⟨hp1b, hcb⟩ := seg_nil_inv hrestP
    rw [hfP0] at hfp
    injection hfp with hfp
    subst hfp
    subst hc1'
    have hpb : pid ≠ b := fun h => hbX (h ▸ List.mem_append_right _ (List.mem_singleton.mpr rfl))
    have hpX2 : pid ∉ X2 := by
      rw [List.nodup_append] at hndX
      exact fun h => hndX.2.2 h (List.mem_singleton.mpr rfl)
    subst hs1
    rcases removeStepNext_ok_inv hstep2 with ⟨hdn, hu2, hs2⟩ |
      ⟨nid, q, hdn, hfq, hqprev, hu2, hs2⟩
    · -- tail delete: Y = []
      have hY : Y = [] := by
        cases Y with
        | nil => rfl
        | cons m t =>
          obtain ⟨hm, _⟩ := seg_cons_inv hrestY
          rw [hdn] at hm
          cases hm
      subst hY
      subst hs2
      subst hs3
      have hkeys3 : ∀ id, id ∈ keys (removeById (updateById s pid
          (fun n => { n with next := d.next, version := n.version + 1 })) b) ↔
          id ∈ keys s ∧ id ≠ b := by
        intro id
        rw [mem_keys_removeById, keys_updateById]
      obtain ⟨hnd2, hcov2⟩ := cover_nodup_remove hcov hL hnodup hkeys3
      have hP2 : findById (removeById (updateById s pid
          (fun n => { n with next := d.next, version := n.version + 1 })) b) pid =
          some ⟨P0.prev, d.next, P0.version + 1⟩ := by
        rw [findById_removeById, if_neg hpb, findById_updateById, if_pos rfl, hfP0]
        rfl
      have hframe : ∀ id, id ∈ X2 → findById (removeById (updateById s pid
          (fun n => { n with next := d.next, version := n.version + 1 })) b) id =
          findById s id := by
        intro id hidX
        have hidp : id ≠ pid := fun h => hpX2 (h ▸ hidX)
        have hidb : id ≠ b := fun h => hbX (h ▸ List.mem_append_left _ hidX)
        exact findById_remove_update1 hidp hidb
      refine ⟨wf_removeById (by rw [wf, keys_updateById]; exact hwf) b,
        (X2 ++ [pid]) ++ [], ⟨st, some pid, ?_⟩, by simpa using hnd2,
        by simpa using hcov2⟩
      rw [List.append_nil]
      refine seg_append (seg_congr hsegX2 hframe) (seg.cons hP2 hpP0 ?_)
      show seg _ (some pid) (⟨P0.prev, d.next, P0.version + 1⟩ : DbNode).next [] (some pid) none
      have hdnone : d.next = none := hdn
      show seg _ (some pid) d.next [] (some pid) none
      rw [hdnone]
      exact seg.nil (some pid) none
    · -- middle delete: Y = nid :: Y2
      obtain ⟨Y2, hY⟩ : ∃ Y2, Y = nid :: Y2 := by
        cases Y with
        | nil =>
          obtain ⟨_, hcn⟩ := seg_nil_inv hrestY
          rw [hdn] at hcn
          cases hcn
        | cons m t =>
          obtain ⟨hm, _⟩ := seg_cons_inv hrestY
          rw [hdn] at hm
          injection hm with hm
          exact ⟨t, by rw [hm]⟩
      subst hY
      obtain ⟨hcn, N, hfN, hpN, hrestY2⟩ := seg_cons_inv hrestY
      have hnb : nid ≠ b := fun h => hbY (h ▸ List.mem_cons_self _ _)
      have hnY2 : nid ∉ Y2 := (List.nodup_cons.mp (List.nodup_cons.mp hndbY).2).1
      have hnp : nid ≠ pid := by
        intro h
        apply hdisj (show pid ∈ X2 ++ [pid] from List.mem_append_right _
          (List.mem_singleton.mpr rfl))
        rw [← h]
        exact List.mem_cons_of_mem _ (List.mem_cons_self _ _)
      -- q read in s1 equals N
      have hfq2 : findById (updateById s pid
          (fun n => { n with next := d.next, version := n.version + 1 })) nid =
          findById s nid := by
        rw [findById_updateById, if_neg hnp]
      rw [hfq2, hfN] at hfq
      injection hfq with hfq
      subst hfq
      subst hs2
      subst hs3
      have hkeys3 : ∀ id, id ∈ keys (removeById (updateById (updateById s pid
          (fun n => { n with next := d.next, version := n.version + 1 })) nid
          (fun n => { n with prev := d.prev, version := n.version + 1 })) b) ↔
          id ∈ keys s ∧ id ≠ b := by
        intro id
        rw [mem_keys_removeById, keys_updateById, keys_updateById]
      obtain ⟨hnd2, hcov2⟩ := cover_nodup_remove hcov hL hnodup hkeys3
      have hP2 : findById (removeById (updateById (updateById s pid
          (fun n => { n with next := d.next, version := n.version + 1 })) nid
          (fun n => { n with prev := d.prev, version := n.version + 1 })) b) pid =
          some ⟨P0.prev, d.next, P0.version + 1⟩ := by
        rw [findById_removeById, if_neg hpb, findById_updateById,
          if_neg (fun h => hnp h.symm), findById_updateById, if_pos rfl, hfP0]
        rfl
      have hN2 : findById (removeById (updateById (updateById s pid
          (fun n => { n with next := d.next, version := n.version + 1 })) nid
          (fun n => { n with prev := d.prev, version := n.version + 1 })) b) nid =
          some ⟨d.prev, N.next, N.version + 1⟩ := by
        rw [findById_removeById, if_neg hnb, findById_updateById, if_pos rfl,
          findById_updateById, if_neg hnp, hfN]
        rfl
      have hframeX2 : ∀ id, id ∈ X2 → findById (removeById (updateById (updateById s pid
          (fun n => { n with next := d.next, version := n.version + 1 })) nid
          (fun n => { n with prev := d.prev, version := n.version + 1 })) b) id =
          findById s id := by
        intro id hidX
        have hidp : id ≠ pid := fun h => hpX2 (h ▸ hidX)
        have hidn : id ≠ nid := by
          intro h
          exact hdisj (List.mem_append_left _ hidX)
            (by rw [h]; exact List.mem_cons_of_mem _ (List.mem_cons_self _ _))
        have hidb : id ≠ b := fun h => hbX (h ▸ List.mem_append_left _ hidX)
        exact findById_remove_update2 hidp hidn hidb
      have hframeY2 : ∀ id, id ∈ Y2 → findById (removeById (updateById (updateById s pid
          (fun n => { n with next := d.next, version := n.version + 1 })) nid
          (fun n => { n with prev := d.prev, version := n.version + 1 })) b) id =
          findById s id := by
        intro id hidY
        have hidp : id ≠ pid := by
          intro h
          apply hdisj (show pid ∈ X2 ++ [pid] from List.mem_append_right _
            (List.mem_singleton.mpr rfl))
          rw [← h]
          exact List.mem_cons_of_mem _ (List.mem_cons_of_mem _ hidY)
        have hidn : id ≠ nid := fun h => hnY2 (h ▸ hidY)
        have hidb : id ≠ b := fun h =>
          hbY (h ▸ List.mem_cons_of_mem _ hidY)
        exact findById_remove_update2 hidp hidn hidb
      refine ⟨wf_removeById (by rw [wf, keys_updateById, keys_updateById]; exact hwf) b,
        (X2 ++ [pid]) ++ nid :: Y2, ⟨st, p2, ?_⟩, hnd2, hcov2⟩
      rw [show (X2 ++ [pid]) ++ nid :: Y2 = X2 ++ pid :: nid :: Y2 from by simp]
      refine seg_append (seg_congr hsegX2 hframeX2) ?_
      refine seg.cons hP2 hpP0 ?_
      exact seg_cast_cursor (show (⟨P0.prev, d.next, P0.version + 1⟩ : DbNode).next =
          some nid from hdn)
        (seg.cons hN2 hdp (seg_congr hrestY2 hframeY2))

theorem rep_no_self_loop {s : DbState} {L : List Nat} {id : Nat} {n : DbNode}
    (hrep : represents s L) (h : findById s id = some n) :
    n.next ≠ some id ∧ n.prev ≠ some id := by
  obtain ⟨X, Y, hL⟩ := List.append_of_mem ((hrep.2.2 id).mp (mem_keys_of_findById h))
  obtain ⟨n0, hf0, hp0, hn0⟩ := rep_at hrep hL
  rw [h] at hf0
  injection hf0 with hf0
  subst hf0
  have hnd := hrep.2.1
  rw [hL, List.nodup_append] at hnd
  obtain ⟨hndX, hndidY, hdisj⟩ := hnd
  have hidX : id ∉ X := fun hx => hdisj hx (List.mem_cons_self _ _)
  have hidY : id ∉ Y := (List.nodup_cons.mp hndidY).1
  constructor
  · intro hcontra
    rw [hn0] at hcontra
    cases Y with
    | nil => cases hcontra
    | cons m t =>
      injection hcontra with hcontra
      exact hidY (by rw [← hcontra]; exact List.mem_cons_self _ _)
  · intro hcontra
    rw [hp0] at hcontra
    rcases expBack_eq_some hcontra with ⟨_, h2⟩ | ⟨X2, hX2⟩
    · cases h2
    · exact hidX (hX2 ▸ List.mem_append_right _ (List.mem_singleton.mpr rfl))

theorem rep_prev_next_distinct {s : DbState} {L : List Nat} {b pid nid : Nat} {d : DbNode}
    (hrep : represents s L) (hfd : findById s b = some d)
    (hdp : d.prev = some pid) (hdn : d.next = some nid) : pid ≠ nid := by
  obtain ⟨X, Y, hL⟩ := List.append_of_mem ((hrep.2.2 b).mp (mem_keys_of_findById hfd))
  obtain ⟨n0, hf0, hp0, hn0⟩ := rep_at hrep hL
  rw [hfd] at hf0
  injection hf0 with hf0
  subst hf0
  have hnd := hrep.2.1
  rw [hL, List.nodup_append] at hnd
  obtain ⟨hndX, hndbY, hdisj⟩ := hnd
  have hpidX : pid ∈ X := by
    rw [hdp] at hp0
    rcases expBack_eq_some hp0.symm with ⟨_, h2⟩ | ⟨X2, hX2⟩
    · cases h2
    · exact hX2 ▸ List.mem_append_right _ (List.mem_singleton.mpr rfl)
  have hnidY : nid ∈ Y := by
    rw [hdn] at hn0
    cases Y with
    | nil => cases hn0.symm
    | cons m t =>
      injection hn0.symm with hinj
      exact hinj ▸ List.mem_cons_self _ _
  intro hcontra
  exact hdisj hpidX (hcontra ▸ List.mem_cons_of_mem _ hnidY)

theorem invFull_nil : InvFull [] := by
  refine ⟨by simp [wf, keys], ?_, ?_, ?_, ?_, [],
    ⟨none, none, seg.nil none none⟩, by simp, by simp [keys]⟩
  · intro id1 id2 n1 n2 h1 _ _ _
    cases h1
  · intro id1 id2 n1 n2 h1 _ _ _
    cases h1
  · intro id n m h _
    cases h
  · intro id n m h _
    cases h

theorem insertAtHead_pointwise {s : DbState} {c : Nat} {r : AddResult} {s2 : DbState}
    (hc : c ∉ keys s) (hok : insertAtHead s c = .ok (r, s2)) :
    (∀ id n n2, findById s id = some n → findById s2 id = some n2 →
      n2 = n ∨ (n2.version = n.version + 1 ∧ (n2.prev ≠ n.prev ∨ n2.next ≠ n.next))) ∧
    (∀ id n2, id ∉ keys s → findById s2 id = some n2 → n2.version = 0) := by
  rcases insertAtHead_ok_inv hok with ⟨hh, hr, hs2⟩ |
    ⟨hid, hnode, n0, hh, hf, hp0, hv0, hr, hs2⟩
  · subst hs2
    constructor
    · intro id n n2 hn hn2
      rw [findById_append_of_mem hn] at hn2
      injection hn2 with hn2
      exact Or.inl hn2.symm
    · intro id n2 hid hn2
      rw [findById_append_of_not_mem hid] at hn2
      by_cases hidc : id = c
      · subst hidc
        rw [show findById [(id, (⟨none, none, 0⟩ : DbNode))] id = some ⟨none, none, 0⟩
          from by simp [findById]] at hn2
        injection hn2 with hn2
        rw [← hn2]
      · rw [show findById [(c, (⟨none, none, 0⟩ : DbNode))] id = none
          from by simp [findById, Ne.symm hidc]] at hn2
        cases hn2
  · subst hs2
    have hhidmem : hid ∈ keys s := mem_keys_of_findById hf
    constructor
    · intro id n n2 hn hn2
      by_cases hidc : id = c
      · exact absurd (hidc ▸ mem_keys_of_findById hn) hc
      · by_cases hidh : id = hid
        · subst hidh
          have hnn : n = n0 := by
            rw [hf] at hn
            injection hn with h
            exact h.symm
          rw [findById_append_of_mem (show findById (updateById s id
            (fun x => { x with prev := some c, version := x.version + 1 })) id =
              some ⟨some c, n0.next, n0.version + 1⟩ from by
                rw [findById_updateById, if_pos rfl, hf]; rfl)] at hn2
          injection hn2 with hn2
          refine Or.inr ⟨?_, Or.inl ?_⟩
          · rw [← hn2, hnn]
          · rw [← hn2, hnn, hp0]
            simp
        · rw [findById_update1_append hidh hidc, hn] at hn2
          injection hn2 with hn2
          exact Or.inl hn2.symm
    · intro id n2 hid2 hn2
      by_cases hidc : id = c
      · subst hidc
        rw [show findById (updateById s hid
          (fun x => { x with prev := some id, version := x.version + 1 })
          ++ [(id, (⟨none, some hid, 0⟩ : DbNode))]) id = some ⟨none, some hid, 0⟩ from by
            rw [findById_append_of_not_mem (by rw [keys_updateById]; exact hc)]
            simp [findById]] at hn2
        injection hn2 with hn2
        rw [← hn2]
      · have hidh : id ≠ hid := fun h => hid2 (h ▸ hhidmem)
        rw [findById_update1_append hidh hidc, findById_eq_none_iff.mpr hid2] at hn2
        cases hn2

theorem insertAfter_pointwise {s : DbState} {a c : Nat} {r : AddResult} {s2 : DbState}
    {L : List Nat} (hrep : represents s L) (hc : c ∉ keys s)
    (hok : insertAfter s a c = .ok (r, s2)) :
    (∀ id n n2, findById s id = some n → findById s2 id = some n2 →
      n2 = n ∨ (n2.version = n.version + 1 ∧ (n2.prev ≠ n.prev ∨ n2.next ≠ n.next))) ∧
    (∀ id n2, id ∉ keys s → findById s2 id = some n2 → n2.version = 0) := by
  obtain ⟨A, hfa, hcase⟩ := insertAfter_ok_inv hok
  have hamem : a ∈ keys s := mem_keys_of_findById hfa
  have hca : c ≠ a := fun h => hc (h ▸ hamem)
  rcases hcase with ⟨hnone, hr, hs2⟩ | ⟨b, B1, hnext, hfb, hpb, hr, hs2⟩
  · subst hs2
    constructor
    · intro id n n2 hn hn2
      by_cases hidc : id = c
      · exact absurd (hidc ▸ mem_keys_of_findById hn) hc
      · by_cases hida : id = a
        · subst hida
          have hnn : n = A := by
            rw [hfa] at hn
            injection hn with h
            exact h.symm
          rw [findById_append_of_mem (show findById (updateById s id
            (fun x => { x with next := some c, version := x.version + 1 })) id =
              some ⟨A.prev, some c, A.version + 1⟩ from by
                rw [findById_updateById, if_pos rfl, hfa]; rfl)] at hn2
          injection hn2 with hn2
          refine Or.inr ⟨?_, Or.inr ?_⟩
          · rw [← hn2, hnn]
          · rw [← hn2, hnn, hnone]
            simp
        · rw [findById_update1_append hida hidc, hn] at hn2
          injection hn2 with hn2
          exact Or.inl hn2.symm
    · intro id n2 hid2 hn2
      by_cases hidc : id = c
      · subst hidc
        rw [show findById (updateById s a
          (fun x => { x with next := some id, version := x.version + 1 })
          ++ [(id, (⟨some a, none, 0⟩ : DbNode))]) id = some ⟨some a, none, 0⟩ from by
            rw [findById_append_of_not_mem (by rw [keys_updateById]; exact hc)]
            simp [findById]] at hn2
        injection hn2 with hn2
        rw [← hn2]
      · have hida : id ≠ a := fun h => hid2 (h ▸ hamem)
        rw [findById_update1_append hida hidc, findById_eq_none_iff.mpr hid2] at hn2
        cases hn2
  · have hba : b ≠ a := fun h => (rep_no_self_loop hrep hfa).1 (by rw [hnext, h])
    have hfbs : findById s b = some B1 := by
      rw [findById_updateById, if_neg hba] at hfb
      exact hfb
    have hbmem : b ∈ keys s := mem_keys_of_findById hfbs
    have hcb : c ≠ b := fun h => hc (h ▸ hbmem)
    subst hs2
    constructor
    · intro id n n2 hn hn2
      by_cases hidc : id = c
      · exact absurd (hidc ▸ mem_keys_of_findById hn) hc
      · by_cases hida : id = a
        · subst hida
          have hnn : n = A := by
            rw [hfa] at hn
            injection hn with h
            exact h.symm
          rw [findById_append_of_mem (show findById (updateById (updateById s id
            (fun x => { x with next := some c, version := x.version + 1 })) b
            (fun x => { x with prev := some c, version := x.version + 1 })) id =
              some ⟨A.prev, some c, A.version + 1⟩ from by
                rw [findById_updateById, if_neg (fun h => hba h.symm),
                  findById_updateById, if_pos rfl, hfa]
                rfl)] at hn2
          injection hn2 with hn2
          refine Or.inr ⟨?_, Or.inr ?_⟩
          · rw [← hn2, hnn]
          · rw [← hn2, hnn, hnext]
            exact fun hh => hcb (Option.some.inj hh)
        · by_cases hidb : id = b
          · subst hidb
            have hnn : n = B1 := by
              rw [hfbs] at hn
              injection hn with h
              exact h.symm
            rw [findById_append_of_mem (show findById (updateById (updateById s a
              (fun x => { x with next := some c, version := x.version + 1 })) id
              (fun x => { x with prev := some c, version := x.version + 1 })) id =
                some ⟨some c, B1.next, B1.version + 1⟩ from by
                  rw [findById_updateById, if_pos rfl, hfb]
                  rfl)] at hn2
            injection hn2 with hn2
            refine Or.inr ⟨?_, Or.inl ?_⟩
            · rw [← hn2, hnn]
            · rw [← hn2, hnn, hpb]
              exact fun hh => hca (Option.some.inj hh)
          · rw [findById_update2_append hida hidb hidc, hn] at hn2
            injection hn2 with hn2
            exact Or.inl hn2.symm
    · intro id n2 hid2 hn2
      by_cases hidc : id = c
      · subst hidc
        rw [show findById (updateById (updateById s a
          (fun x => { x with next := some id, version := x.version + 1 })) b
          (fun x => { x with prev := some id, version := x.version + 1 })
          ++ [(id, (⟨some a, some b, 0⟩ : DbNode))]) id = some ⟨some a, some b, 0⟩ from by
            rw [findById_append_of_not_mem
              (by rw [keys_updateById, keys_updateById]; exact hc)]
            simp [findById]] at hn2
        injection hn2 with hn2
        rw [← hn2]
      · have hida : id ≠ a := fun h => hid2 (h ▸ hamem)
        have hidb : id ≠ b := fun h => hid2 (h ▸ hbmem)
        rw [findById_update2_append hida hidb hidc, findById_eq_none_iff.mpr hid2] at hn2
        cases hn2

theorem removeNode_pointwise {s : DbState} {b : Nat} {r : RemoveResult} {s3 : DbState}
    {L : List Nat} (hrep : represents s L) (hok : removeNode s b = .ok (r, s3)) :
    (∀ id n n2, findById s id = some n → findById s3 id = some n2 →
      n2 = n ∨ (n2.version = n.version + 1 ∧ (n2.prev ≠ n.prev ∨ n2.next ≠ n.next))) ∧
    (∀ id, id ∉ keys s → findById s3 id = none) := by
  obtain ⟨d, u1, s1, u2, s2x, dd, hfd, hstep1, hstep2, hfdd, hvdd, hr, hs3⟩ :=
    removeNode_ok_inv hok
  have hnsl := rep_no_self_loop hrep hfd
  rcases removeStepPrev_ok_inv hstep1 with ⟨hdp, hu1, hs1⟩ |
    ⟨pid, p, hdp, hfp, hpnext, hu1, hs1⟩
  · -- no predecessor
    rw [hs1] at hstep2
    rcases removeStepNext_ok_inv hstep2 with ⟨hdn, hu2, hs2⟩ |
      ⟨nid, q, hdn, hfq, hqprev, hu2, hs2⟩
    · rw [hs2] at hs3
      subst hs3
      constructor
      · intro id n n2 hn hn2
        rw [findById_removeById] at hn2
        by_cases hidb : id = b
        · rw [if_pos hidb] at hn2
          cases hn2
        · rw [if_neg hidb, hn] at hn2
          injection hn2 with hn2
          exact Or.inl hn2.symm
      · intro id hid2
        rw [findById_removeById]
        by_cases hidb : id = b
        · rw [if_pos hidb]
        · rw [if_neg hidb]
          exact findById_eq_none_iff.mpr hid2
    · have hnb : nid ≠ b := fun h => hnsl.1 (by rw [hdn, h])
      subst hs2
      subst hs3
      constructor
      · intro id n n2 hn hn2
        by_cases hidb : id = b
        · rw [hidb, findById_removeById, if_pos rfl] at hn2
          cases hn2
        · by_cases hidn : id = nid
          · subst hidn
            have hnn : n = q := by
              rw [hfq] at hn
              injection hn with h
              exact h.symm
            rw [show findById (removeById (updateById s id
              (fun x => { x with prev := d.prev, version := x.version + 1 })) b) id =
                some ⟨d.prev, q.next, q.version + 1⟩ from by
                  rw [findById_removeById, if_neg hidb, findById_updateById,
                    if_pos rfl, hfq]
                  rfl] at hn2
            injection hn2 with hn2
            refine Or.inr ⟨?_, Or.inl ?_⟩
            · rw [← hn2, hnn]
            · rw [← hn2, hnn, hqprev]
              intro hcontra
              exact hnsl.2 (by rw [← hcontra])
          · rw [findById_remove_update1 hidn hidb, hn] at hn2
            injection hn2 with hn2
            exact Or.inl hn2.symm
      · intro id hid2
        have hidn : id ≠ nid := fun h => hid2 (h ▸ mem_keys_of_findById hfq)
        by_cases hidb : id = b
        · rw [hidb, findById_removeById, if_pos rfl]
        · rw [findById_remove_update1 hidn hidb]
          exact findById_eq_none_iff.mpr hid2
  · -- predecessor pid
    have hpb : pid ≠ b := fun h => hnsl.2 (by rw [hdp, h])
    subst hs1
    rcases removeStepNext_ok_inv hstep2 with ⟨hdn, hu2, hs2⟩ |
      ⟨nid, q, hdn, hfq, hqprev, hu2, hs2⟩
    · subst hs2
      subst hs3
      constructor
      · intro id n n2 hn hn2
        by_cases hidb : id = b
        · rw [hidb, findById_removeById, if_pos rfl] at hn2
          cases hn2
        · by_cases hidp : id = pid
          · subst hidp
            have hnn : n = p := by
              rw [hfp] at hn
              injection hn with h
              exact h.symm
            rw [show findById (removeById (updateById s id
              (fun x => { x with next := d.next, version := x.version + 1 })) b) id =
                some ⟨p.prev, d.next, p.version + 1⟩ from by
                  rw [findById_removeById, if_neg hidb, findById_updateById,
                    if_pos rfl, hfp]
                  rfl] at hn2
            injection hn2 with hn2
            refine Or.inr ⟨?_, Or.inr ?_⟩
            · rw [← hn2, hnn]
            · rw [← hn2, hnn, hpnext]
              intro hcontra
              exact hnsl.1 (by rw [← hcontra])
          · rw [findById_remove_update1 hidp hidb, hn] at hn2
            injection hn2 with hn2
            exact Or.inl hn2.symm
      · intro id hid2
        have hidp : id ≠ pid := fun h => hid2 (h ▸ mem_keys_of_findById hfp)
        by_cases hidb : id = b
        · rw [hidb, findById_removeById, if_pos rfl]
        · rw [findById_remove_update1 hidp hidb]
          exact findById_eq_none_iff.mpr hid2
    · have hnb : nid ≠ b := fun h => hnsl.1 (by rw [hdn, h])
      have hnp : nid ≠ pid :=
        fun h => rep_prev_next_distinct hrep hfd hdp hdn h.symm
      have hfqs : findById s nid = some q := by
        rw [findById_updateById, if_neg hnp] at hfq
        exact hfq
      subst hs2
      subst hs3
      constructor
      · intro id n n2 hn hn2
        by_cases hidb : id = b
        · rw [hidb, findById_removeById, if_pos rfl] at hn2
          cases hn2
        · by_cases hidp : id = pid
          · subst hidp
            have hnn : n = p := by
              rw [hfp] at hn
              injection hn with h
              exact h.symm
            rw [show findById (removeById (updateById (updateById s id
              (fun x => { x with next := d.next, version := x.version + 1 })) nid
              (fun x => { x with prev := d.prev, version := x.version + 1 })) b) id =
                some ⟨p.prev, d.next, p.version + 1⟩ from by
                  rw [findById_removeById, if_neg hidb, findById_updateById,
                    if_neg (fun h => hnp h.symm), findById_updateById,
                    if_pos rfl, hfp]
                  rfl] at hn2
            injection hn2 with hn2
            refine Or.inr ⟨?_, Or.inr ?_⟩
            · rw [← hn2, hnn]
            · rw [← hn2, hnn, hpnext]
              intro hcontra
              exact hnsl.1 (by rw [← hcontra])
          · by_cases hidn : id = nid
            · subst hidn
              have hnn : n = q := by
                rw [hfqs] at hn
                injection hn with h
                exact h.symm
              rw [show findById (removeById (updateById (updateById s pid
                (fun x => { x with next := d.next, version := x.version + 1 })) id
                (fun x => { x with prev := d.prev, version := x.version + 1 })) b) id =
                  some ⟨d.prev, q.next, q.version + 1⟩ from by
                    rw [findById_removeById, if_neg hidb, findById_updateById,
                      if_pos rfl, findById_updateById, if_neg hnp, hfqs]
                    rfl] at hn2
              injection hn2 with hn2
              refine Or.inr ⟨?_, Or.inl ?_⟩
              · rw [← hn2, hnn]
              · rw [← hn2, hnn, hqprev]
                intro hcontra
                exact hnsl.2 (by rw [← hcontra])
            · rw [findById_remove_update2 hidp hidn hidb, hn] at hn2
              injection hn2 with hn2
              exact Or.inl hn2.symm
      · intro id hid2
        have hidp : id ≠ pid := fun h => hid2 (h ▸ mem_keys_of_findById hfp)
        have hidn : id ≠ nid := fun h => hid2 (h ▸ mem_keys_of_findById hfqs)
        by_cases hidb : id = b
        · rw [hidb, findById_removeById, if_pos rfl]
        · rw [findById_remove_update2 hidp hidn hidb]
          exact findById_eq_none_iff.mpr hid2

/-- **C1**: structural integrity is an invariant.  Starting from any state
satisfying the list-wide invariants (key uniqueness, at most one head with
`prev = nil`, at most one tail with `next = nil`, pointer symmetry in both
directions, and the chain from the head via `next` enumerating every
persisted node exactly once, acyclically), every successful `insertAtHead`,
`insertAfter` and `removeNode` transaction commits a state satisfying them
again. -/
theorem invariants_preserved {s s2 : DbState} (hinv : InvFull s) (hstep : stepOk s s2) :
    InvFull s2 := by
  obtain ⟨hwf, _, _, _, _, L, hrep⟩ := hinv
  rcases hstep with ⟨c, r, hc, hok⟩ | ⟨a, c, r, hc, hok⟩ | ⟨b, r, hok⟩
  · obtain ⟨hwf2, L2, hrep2⟩ := insertAtHead_preserves hwf hrep hc hok
    exact invFull_of_rep hwf2 hrep2
  · obtain ⟨hwf2, L2, hrep2⟩ := insertAfter_preserves hwf hrep hc hok
    exact invFull_of_rep hwf2 hrep2
  · obtain ⟨hwf2, L2, hrep2⟩ := removeNode_preserves hwf hrep hok
    exact invFull_of_rep hwf2 hrep2

theorem invariants_preserved_witness :
    InvFull [(1, (⟨none, none, 0⟩ : DbNode))] :=
  invariants_preserved invFull_nil
    (Or.inl ⟨1, ⟨1, ⟨none, none, 0⟩, []⟩, by simp [keys], rfl⟩)

/-- **C7**: version discipline.  Under the list-wide invariants, every
committed mutation-engine transaction (a) leaves each persisted node either
untouched or with its version incremented by exactly one together with a
change to that node's `prev` or `next` pointer, (b) creates every new node at
version 0, and consequently (c) no node's observed version ever decreases
across the commit. -/
theorem version_discipline {s s2 : DbState} (hinv : InvFull s) (hstep : stepOk s s2) :
    (∀ id n n2, findById s id = some n → findById s2 id = some n2 →
      n2 = n ∨ (n2.version = n.version + 1 ∧ (n2.prev ≠ n.prev ∨ n2.next ≠ n.next))) ∧
    (∀ id n2, id ∉ keys s → findById s2 id = some n2 → n2.version = 0) ∧
    (∀ id n n2, findById s id = some n → findById s2 id = some n2 →
      n.version ≤ n2.version) := by
  obtain ⟨hwf, _, _, _, _, L, hrep⟩ := hinv
  have main : (∀ id n n2, findById s id = some n → findById s2 id = some n2 →
      n2 = n ∨ (n2.version = n.version + 1 ∧ (n2.prev ≠ n.prev ∨ n2.next ≠ n.next))) ∧
      (∀ id n2, id ∉ keys s → findById s2 id = some n2 → n2.version = 0) := by
    rcases hstep with ⟨c, r, hc, hok⟩ | ⟨a, c, r, hc, hok⟩ | ⟨b, r, hok⟩
    · exact insertAtHead_pointwise hc hok
    · exact insertAfter_pointwise hrep hc hok
    · obtain ⟨hA, hnone⟩ := removeNode_pointwise hrep hok
      refine ⟨hA, fun id n2 hid hn2 => ?_⟩
      rw [hnone id hid] at hn2
      cases hn2
  refine ⟨main.1, main.2, ?_⟩
  intro id n n2 hn hn2
  rcases main.1 id n n2 hn hn2 with h | ⟨h, _⟩
  · rw [h]
  · rw [h]
    exact Nat.le_succ _

theorem version_discipline_witness :
    findById ([] ++ [(1, (⟨none, none, 0⟩ : DbNode))]) 1 = some ⟨none, none, 0⟩ ∧
    (⟨none, none, 0⟩ : DbNode).version = 0 :=
  ⟨rfl, (version_discipline invFull_nil
      (Or.inl ⟨1, ⟨1, ⟨none, none, 0⟩, []⟩, by simp [keys], rfl⟩)).2.1
    1 ⟨none, none, 0⟩ (by simp [keys]) rfl⟩

/-! ## Sequential executions: the RETRY branches are unreachable -/

theorem insertAtHead_sequential_ok {s : DbState} (hwf : wf s) (c : Nat) :
    ∃ v, insertAtHead s c = .ok v := by
  unfold insertAtHead findOneAndUpdate
  cases hh : findHead s with
  | none => exact ⟨_, rfl⟩
  | some e =>
    obtain ⟨hid, hnode⟩ := e
    obtain ⟨hmem, hprev⟩ := findHead_some_mem hh
    have hf : findById s hid = some hnode := mem_wf_findById hwf hmem
    simp only [hf]
    rw [if_pos (by simp [hprev])]
    exact ⟨_, rfl⟩

theorem insertAfter_sequential {s : DbState} {L : List Nat} (hwf : wf s)
    (hrep : represents s L) (a c : Nat) :
    (∃ v, insertAfter s a c = .ok v) ∨
      insertAfter s a c = .error (conflictError "Reference node was deleted") := by
  cases hfa : findById s a with
  | none =>
    right
    unfold insertAfter
    simp only [hfa]
  | some A =>
    left
    unfold insertAfter findOneAndUpdate
    simp only [hfa]
    rw [if_pos (by simp)]
    cases hnx : A.next with
    | none => exact ⟨_, rfl⟩
    | some b =>
      obtain ⟨B, hfB, hpB⟩ := rep_nextPrevSym hrep a A b hfa hnx
      have hba : b ≠ a := fun h => (rep_no_self_loop hrep hfa).1 (by rw [hnx, h])
      have hfb1 : findById (updateById s a
          (fun n => { n with next := some c, version := n.version + 1 })) b = some B := by
        rw [findById_updateById, if_neg hba]
        exact hfB
      simp only [hfb1]
      rw [if_pos (by simp [hpB])]
      exact ⟨_, rfl⟩

theorem removeNode_sequential {s : DbState} {L : List Nat} (hwf : wf s)
    (hrep : represents s L) (b : Nat) :
    (∃ v, removeNode s b = .ok v) ∨
      removeNode s b = .error (conflictError "Node not found or already deleted") := by
  cases hfd : findById s b with
  | none =>
    right
    unfold removeNode
    simp only [hfd]
  | some d =>
    left
    have hnsl := rep_no_self_loop hrep hfd
    unfold removeNode removeStepPrev removeStepNext findOneAndUpdate findOneAndDelete
    simp only [hfd]
    cases hdp : d.prev with
    | none =>
      cases hdn : d.next with
      | none =>
        simp only [hfd]
        rw [if_pos (by simp)]
        exact ⟨_, rfl⟩
      | some nid =>
        obtain ⟨N, hfN, hpN⟩ := rep_nextPrevSym hrep b d nid hfd hdn
        have hnb : nid ≠ b := fun h => hnsl.1 (by rw [hdn, h])
        simp only [hfN]
        rw [if_pos (by simp [hpN])]
        have hfd2 : findById (updateById s nid
            (fun n => { n with prev := none, version := n.version + 1 })) b = some d := by
          rw [findById_updateById, if_neg (fun h => hnb h.symm)]
          exact hfd
        simp only [hfd2]
        rw [if_pos (by simp)]
        exact ⟨_, rfl⟩
    | some pid =>
      obtain ⟨P, hfP, hnP⟩ := rep_prevNextSym hrep b d pid hfd hdp
      have hpb : pid ≠ b := fun h => hnsl.2 (by rw [hdp, h])
      simp only [hfP]
      rw [if_pos (by simp [hnP])]
      cases hdn : d.next with
      | none =>
        have hfd2 : findById (updateById s pid
            (fun n => { n with next := none, version := n.version + 1 })) b = some d := by
          rw [findById_updateById, if_neg (fun h => hpb h.symm)]
          exact hfd
        simp only [hfd2]
        rw [if_pos (by simp)]
        exact ⟨_, rfl⟩
      | some nid =>
        obtain ⟨N, hfN, hpN⟩ := rep_nextPrevSym hrep b d nid hfd hdn
        have hnb : nid ≠ b := fun h => hnsl.1 (by rw [hdn, h])
        have hnp : nid ≠ pid :=
          fun h => rep_prev_next_distinct hrep hfd hdp hdn h.symm
        have hfN1 : findById (updateById s pid
            (fun n => { n with next := some nid, version := n.version + 1 })) nid =
            some N := by
          rw [findById_updateById, if_neg hnp]
          exact hfN
        simp only [hfN1]
        rw [if_pos (by simp [hpN])]
        have hfd2 : findById (updateById (updateById s pid
            (fun n => { n with next := some nid, version := n.version + 1 })) nid
            (fun n => { n with prev := some pid, version := n.version + 1 })) b =
            some d := by
          rw [findById_updateById, if_neg (fun h => hnb h.symm),
            findById_updateById, if_neg (fun h => hpb h.symm)]
          exact hfd
        simp only [hfd2]
        rw [if_pos (by simp)]
        exact ⟨_, rfl⟩

theorem conflict_result_ne_retry {T : Type} {msg : String} :
    (Except.error (conflictError msg) : Except JsError T) ≠ .error retryError := by
  intro h
  injection h with h
  rw [conflictError, retryError] at h
  injection h with h1 h2
  exact absurd h1 (by decide)

theorem withRetryFrom_const_first {T : Type} (x : Except JsError T)
    (hx : (∃ v, x = .ok v) ∨ ∃ msg, x = .error (conflictError msg))
    (fuel : Nat) (hfuel : 0 < fuel) :
    withRetryFrom (fun _ => x) 0 fuel = (x, 1) := by
  rcases hx with ⟨v, hv⟩ | ⟨msg, hmsg⟩
  · rw [hv]
    exact withRetryFrom_first_ok _ 0 fuel rfl hfuel
  · rw [hmsg]
    exact withRetryFrom_first_conflict _ 0 fuel rfl (by simp [isConflictError, conflictError])
      hfuel

/-! ## Claims about the retry driver and delete error handling -/

/-- **C4** (amended: the `CONFLICT` message the code raises is capitalized,
`"Node not found or already deleted"`).  For every state and every `nodeId`
that does not identify a persisted node, `removeNode` raises a
`ConflictError` with that message and the committed state is unchanged: no
node is created, deleted, or modified. -/
theorem removeNode_missing_conflict {s : DbState} {nodeId : Nat}
    (h : findById s nodeId = none) :
    removeNode s nodeId = .error (conflictError "Node not found or already deleted") ∧
    commitState s (removeNode s nodeId) = s := by
  have hr : removeNode s nodeId = .error (conflictError "Node not found or already deleted") := by
    unfold removeNode
    rw [h]
  exact ⟨hr, by rw [hr]; rfl⟩

theorem removeNode_missing_conflict_witness :
    removeNode [(2, ⟨none, none, 0⟩)] 5 =
        .error (conflictError "Node not found or already deleted") ∧
      commitState [(2, ⟨none, none, 0⟩)] (removeNode [(2, ⟨none, none, 0⟩)] 5) =
        [(2, ⟨none, none, 0⟩)] :=
  removeNode_missing_conflict (by decide)

/-- **C4** counterexample to the claim as stated: deleting a missing node
raises the capitalized message `"Node not found or already deleted"`, not the
lowercase `"node not found or already deleted"` the claim quotes. -/
theorem removeNode_missing_message_counterexample :
    removeNode [] 1 = .error (conflictError "Node not found or already deleted") ∧
    removeNode [] 1 ≠ .error (conflictError "node not found or already deleted") := by
  decide

/-- **C5** (amended: the `CONFLICT` message the code raises is capitalized,
`"Could not complete operation after several retries"`).  If each of the first
`m` attempts (the driver's budget; `withRetry` uses `m = 10`) fails with the
RETRYABLE signal `Error("RETRY")`, the retry loop makes exactly `m` attempts
and then raises a `ConflictError` with that message; and no error surfaced by
the retry loop to its caller is ever the RETRYABLE signal itself. -/
theorem withRetry_exhaustion {T : Type} (op : Nat → Except JsError T) (m : Nat)
    (hop : ∀ i, i < m → op i = .error retryError) :
    withRetryFrom op 0 m =
      (.error (conflictError "Could not complete operation after several retries"), m) ∧
    ∀ (op2 : Nat → Except JsError T) (a fuel k : Nat) (e : JsError),
      withRetryFrom op2 a fuel = (.error e, k) → e ≠ retryError := by
  constructor
  · exact withRetryFrom_exhaust op 0 m (by simpa using hop)
  · intro op2 a fuel k e h
    exact withRetryFrom_error_not_retrySignal op2 a fuel e k h

theorem withRetry_exhaustion_witness :
    withRetryFrom (fun _ => (.error retryError : Except JsError Nat)) 0 10 =
      (.error (conflictError "Could not complete operation after several retries"), 10) :=
  (withRetry_exhaustion (fun _ => .error retryError) 10 (fun _ _ => rfl)).1

/-- **C5** counterexample to the claim as stated: the budget-exhaustion
message is capitalized `"Could not …"`, not the lowercase `"could not …"` the
claim quotes. -/
theorem withRetry_exhaustion_message_counterexample :
    (withRetry (fun _ => (.error retryError : Except JsError Nat))).1 =
        .error (conflictError "Could not complete operation after several retries") ∧
      "Could not complete operation after several retries" ≠
        "could not complete operation after several retries" := by
  constructor
  · rfl
  · decide

/-- **C6** (amended): `withRetry` does **not** treat a storage-adapter
serialization error at commit like the failed-predicate RETRYABLE signal.
Any attempt error that is neither a `ConflictError` nor carries the message
`"RETRY"` — which is how a transient write-conflict error raised by the
adapter at commit time reaches the catch block — is propagated unchanged to
the caller after that single attempt, with no further attempt made. -/
theorem withRetry_propagates_serialization {T : Type} (op : Nat → Except JsError T)
    (a fuel : Nat) (e : JsError) (h0 : op a = .error e)
    (hc : isConflictError e = false) (hm : e.message ≠ "RETRY") (hfuel : 0 < fuel) :
    withRetryFrom op a fuel = (.error e, 1) :=
  withRetryFrom_first_other op a fuel h0 hc hm hfuel

theorem withRetry_propagates_serialization_witness :
    withRetryFrom (fun _ => (.error ⟨"MongoServerError", "WriteConflict"⟩ : Except JsError Nat))
        0 10 =
      (.error ⟨"MongoServerError", "WriteConflict"⟩, 1) :=
  withRetry_propagates_serialization _ 0 10 _ rfl rfl (by decide) (by decide)

/-- **C6** counterexample to the claim as stated: an adapter serialization
error (`MongoServerError`/`WriteConflict`) surfaces unchanged after exactly
one attempt, while the RETRYABLE signal leads to fresh attempts until the
budget-exhaustion `ConflictError` after ten attempts — the two are not
treated identically. -/
theorem withRetry_serialization_counterexample :
    withRetry (fun _ => (.error ⟨"MongoServerError", "WriteConflict"⟩ : Except JsError Nat)) =
        (.error ⟨"MongoServerError", "WriteConflict"⟩, 1) ∧
      withRetry (fun _ => (.error retryError : Except JsError Nat)) =
        (.error (conflictError "Could not complete operation after several retries"), 10) := by
  decide

/-- **C8**: same-target delete exclusivity.  Committed transactions are
serialized by the database, so a race of several `removeNode(id)` calls
executes as some sequence of transactions; after the one that succeeds, every
later `removeNode(id)` raises `CONFLICT` and leaves the committed state
unchanged (so exactly one succeeds).  In the concrete three-node race
`A→B→C` with id `2` for `B`, the successful delete commits the list `A→C`. -/
theorem removeNode_same_target_exclusive :
    (∀ (s : DbState) (b : Nat) (r : RemoveResult) (s2 : DbState),
        removeNode s b = .ok (r, s2) →
        removeNode s2 b = .error (conflictError "Node not found or already deleted") ∧
        commitState s2 (removeNode s2 b) = s2) ∧
    removeNode [(1, ⟨none, some 2, 0⟩), (2, ⟨some 1, some 3, 0⟩), (3, ⟨some 2, none, 0⟩)] 2 =
      .ok (⟨2, [(1, ⟨none, some (some 3)⟩), (3, ⟨some (some 1), none⟩)]⟩,
           [(1, ⟨none, some 3, 1⟩), (3, ⟨some 1, none, 1⟩)]) := by
  constructor
  · intro s b r s2 h
    have hnone := removeNode_ok_deleted h
    have hr : removeNode s2 b = .error (conflictError "Node not found or already deleted") := by
      unfold removeNode
      rw [hnone]
    exact ⟨hr, by rw [hr]; rfl⟩
  · decide

theorem removeNode_same_target_exclusive_witness :
    removeNode [(1, ⟨none, some 3, 1⟩), (3, ⟨some 1, none, 1⟩)] 2 =
      .error (conflictError "Node not found or already deleted") :=
  (removeNode_same_target_exclusive.1 _ 2 _ _ removeNode_same_target_exclusive.2).1

/-! ## The client reducers -/

namespace Client

theorem inodeExt {a b : INode} (hid : a.id = b.id) (hp : a.prev = b.prev)
    (hn : a.next = b.next) (hv : a.version = b.version) : a = b := by
  cases a
  cases b
  simp_all

theorem dsApply_nil (k : Nat) (n : INode) : dsApply k n [] = n :=
  rfl

theorem dsApply_cons (k : Nat) (n : INode) (u : Nat × NodeDelta) (us : List (Nat × NodeDelta)) :
    dsApply k n (u :: us) = dsApply k (if u.1 = k then assignDelta n u.2 else n) us :=
  rfl

theorem dsApply_id (k : Nat) (n : INode) (us : List (Nat × NodeDelta)) :
    (dsApply k n us).id = n.id := by
  induction us generalizing n with
  | nil => rfl
  | cons u us ih =>
    rw [dsApply_cons]
    by_cases h : u.1 = k <;> simp [h, ih, assignDelta]

theorem dsApply_version (k : Nat) (n : INode) (us : List (Nat × NodeDelta)) :
    (dsApply k n us).version = n.version := by
  induction us generalizing n with
  | nil => rfl
  | cons u us ih =>
    rw [dsApply_cons]
    by_cases h : u.1 = k <;> simp [h, ih, assignDelta]

theorem dsApply_prev (k : Nat) (n : INode) (us : List (Nat × NodeDelta)) :
    (dsApply k n us).prev = (lastDeltaPrev k us).getD n.prev := by
  induction us generalizing n with
  | nil => rfl
  | cons u us ih =>
    rw [dsApply_cons, ih, lastDeltaPrev]
    cases hl : lastDeltaPrev k us with
    | some v => rfl
    | none =>
      by_cases h : u.1 = k
      · simp only [if_pos h, assignDelta]
        cases u.2.dprev <;> rfl
      · simp only [if_neg h]

theorem dsApply_next (k : Nat) (n : INode) (us : List (Nat × NodeDelta)) :
    (dsApply k n us).next = (lastDeltaNext k us).getD n.next := by
  induction us generalizing n with
  | nil => rfl
  | cons u us ih =>
    rw [dsApply_cons, ih, lastDeltaNext]
    cases hl : lastDeltaNext k us with
    | some v => rfl
    | none =>
      by_cases h : u.1 = k
      · simp only [if_pos h, assignDelta]
        cases u.2.dnext <;> rfl
      · simp only [if_neg h]

theorem dsApply_dsApply (k : Nat) (n : INode) (us : List (Nat × NodeDelta)) :
    dsApply k (dsApply k n us) us = dsApply k n us := by
  refine inodeExt (by rw [dsApply_id]) ?_ ?_ (by rw [dsApply_version])
  · rw [dsApply_prev, dsApply_prev]
    cases lastDeltaPrev k us <;> rfl
  · rw [dsApply_next, dsApply_next]
    cases lastDeltaNext k us <;> rfl

theorem applyUpdates_eq_map (l : List (Nat × INode)) (us : List (Nat × NodeDelta)) :
    applyUpdates l us = l.map fun e => (e.1, dsApply e.1 e.2 us) := by
  induction us generalizing l with
  | nil => simp [applyUpdates, dsApply, Prod.mk.eta]
  | cons u us ih =>
    have step : applyUpdates l (u :: us) = applyUpdates (assignEntry l u.1 u.2) us := rfl
    rw [step, ih, assignEntry, List.map_map]
    refine List.map_congr_left fun e _ => ?_
    simp only [Function.comp_apply, dsApply_cons]
    by_cases h : e.1 = u.1
    · rw [if_pos h, if_pos h.symm]
    · rw [if_neg h, if_neg (Ne.symm h)]

theorem getEntry_eq_none_iff (l : List (Nat × INode)) (k : Nat) :
    getEntry l k = none ↔ k ∉ l.map Prod.fst := by
  induction l with
  | nil => simp [getEntry]
  | cons e t ih =>
    obtain ⟨k1, n⟩ := e
    by_cases h : k1 = k
    · simp [getEntry, h]
    · simp only [getEntry, if_neg h, List.map_cons, List.mem_cons, ih]
      constructor
      · intro hn hc
        rcases hc with hc | hc
        · exact h hc.symm
        · exact hn hc
      · intro hn
        exact fun hc => hn (Or.inr hc)

theorem getEntry_map_entry (l : List (Nat × INode)) (g : Nat × INode → INode) (k : Nat) :
    getEntry (l.map fun e => (e.1, g e)) k =
      ((l.find? fun e => e.1 == k).map g) := by
  induction l with
  | nil => rfl
  | cons e t ih =>
    by_cases h : e.1 = k
    · rw [List.map_cons, List.find?_cons_of_pos t (by simpa using h)]
      simp [getEntry, h]
    · rw [List.map_cons, List.find?_cons_of_neg t (by simpa using h)]
      simpa [getEntry, h] using ih

theorem getEntry_as_find (l : List (Nat × INode)) (k : Nat) :
    getEntry l k = (l.find? fun e => e.1 == k).map Prod.snd := by
  induction l with
  | nil => rfl
  | cons e t ih =>
    by_cases h : e.1 = k
    · rw [List.find?_cons_of_pos t (by simpa using h)]
      simp [getEntry, h]
    · rw [List.find?_cons_of_neg t (by simpa using h)]
      simpa [getEntry, h] using ih

theorem getEntry_map_isSome (l : List (Nat × INode)) (g : Nat × INode → INode) (k : Nat) :
    (getEntry (l.map fun e => (e.1, g e)) k).isSome = (getEntry l k).isSome := by
  rw [getEntry_map_entry, getEntry_as_find]
  cases l.find? fun e => e.1 == k <;> rfl

theorem getEntry_append_of_none {l1 : List (Nat × INode)} {k : Nat}
    (h : getEntry l1 k = none) (l2 : List (Nat × INode)) :
    getEntry (l1 ++ l2) k = getEntry l2 k := by
  induction l1 with
  | nil => rfl
  | cons e t ih =>
    by_cases he : e.1 = k
    · rw [show getEntry (e :: t) k = some e.2 from by simp [getEntry, he]] at h
      cases h
    · simp only [getEntry, if_neg he] at h
      simpa [getEntry, he] using ih h

theorem map_form_comp (g1 g2 : Nat × INode → INode) (l : List (Nat × INode)) :
    ((l.map fun e => (e.1, g1 e)).map fun e => (e.1, g2 e)) =
      l.map fun e => (e.1, g2 (e.1, g1 e)) := by
  rw [List.map_map]
  exact List.map_congr_left fun a _ => rfl

theorem keys_map_form (g : Nat × INode → INode) (l : List (Nat × INode)) :
    (l.map fun e => (e.1, g e)).map Prod.fst = l.map Prod.fst := by
  rw [List.map_map]
  exact List.map_congr_left fun a _ => rfl

theorem getEntry_map_form_none_iff (g : Nat × INode → INode) (l : List (Nat × INode)) (k : Nat) :
    (getEntry (l.map fun e => (e.1, g e)) k = none) ↔ getEntry l k = none := by
  rw [getEntry_eq_none_iff, getEntry_eq_none_iff, keys_map_form]

theorem setEntry_of_isSome {l : List (Nat × INode)} {b : Nat} (c : INode)
    (h : (getEntry l b).isSome = true) :
    setEntry l b c = l.map fun e => (e.1, if e.1 = b then c else e.2) := by
  rw [setEntry, if_pos h]
  refine List.map_congr_left fun e _ => ?_
  by_cases he : e.1 = b <;> simp [he]

theorem setEntry_of_none {l : List (Nat × INode)} {b : Nat} (c : INode)
    (h : getEntry l b = none) :
    setEntry l b c = l ++ [(b, c)] := by
  rw [setEntry, if_neg]
  rw [h]
  simp

theorem applyUpdates_applyUpdates (l : List (Nat × INode)) (us : List (Nat × NodeDelta)) :
    applyUpdates (applyUpdates l us) us = applyUpdates l us := by
  rw [applyUpdates_eq_map l us, applyUpdates_eq_map, map_form_comp]
  exact List.map_congr_left fun e _ => by simp [dsApply_dsApply]

theorem applyUpdates_removeEntry (l : List (Nat × INode)) (us : List (Nat × NodeDelta))
    (b : Nat) :
    applyUpdates (removeEntry l b) us = removeEntry (applyUpdates l us) b := by
  simp only [removeEntry]
  rw [applyUpdates_eq_map, applyUpdates_eq_map, List.filter_map]
  rfl

theorem removeEntry_removeEntry (l : List (Nat × INode)) (b : Nat) :
    removeEntry (removeEntry l b) b = removeEntry l b := by
  simp only [removeEntry]
  rw [List.filter_filter]
  exact List.filter_congr fun x _ => Bool.and_self _

theorem getEntry_removeEntry_self (l : List (Nat × INode)) (k : Nat) :
    getEntry (removeEntry l k) k = none := by
  rw [getEntry_eq_none_iff]
  intro hmem
  rw [List.mem_map] at hmem
  obtain ⟨e, he, hk⟩ := hmem
  simp only [removeEntry] at he
  rw [List.mem_filter] at he
  have := he.2
  simp only [decide_eq_true_eq] at this
  exact this hk

theorem nstateExt {a b : NodesState} (hl : a.list = b.list)
    (hs : a.selectedNode = b.selectedNode) : a = b := by
  cases a
  cases b
  simp_all

theorem addNode_list (st : NodesState) (p : NodeAddedData) :
    (addNode st p).list =
      setEntry (applyUpdates st.list p.updatedNodes) p.createdNode.id p.createdNode :=
  rfl

theorem addNode_sel (st : NodesState) (p : NodeAddedData) :
    (addNode st p).selectedNode =
      match st.selectedNode with
      | none => some p.createdNode.id
      | some x => some x :=
  rfl

theorem removeNode_list (st : NodesState) (p : NodeRemovedData) :
    (removeNode st p).list =
      removeEntry (applyUpdates st.list p.updatedNodes) p.deletedNodeId :=
  rfl

theorem removeNode_sel (st : NodesState) (p : NodeRemovedData) :
    (removeNode st p).selectedNode =
      if st.selectedNode = some p.deletedNodeId then
        match getEntry st.list p.deletedNodeId with
        | none => none
        | some dn =>
          match dn.next with
          | some nx => some nx
          | none => dn.prev
      else st.selectedNode :=
  rfl

theorem addList_idem (l : List (Nat × INode)) (us : List (Nat × NodeDelta)) (c : INode) :
    setEntry (applyUpdates (setEntry (applyUpdates l us) c.id c) us) c.id c =
      setEntry (applyUpdates l us) c.id c := by
  rw [applyUpdates_eq_map l us]
  by_cases h : (getEntry (l.map fun e => (e.1, dsApply e.1 e.2 us)) c.id).isSome = true
  · rw [setEntry_of_isSome c h, map_form_comp, applyUpdates_eq_map, map_form_comp]
    have h2 : (getEntry
        (l.map fun e =>
          (e.1, dsApply e.1 (if e.1 = c.id then c else dsApply e.1 e.2 us) us))
        c.id).isSome = true := by
      rw [getEntry_map_isSome]
      rw [getEntry_map_isSome] at h
      exact h
    rw [setEntry_of_isSome c h2, map_form_comp]
    refine List.map_congr_left fun e _ => ?_
    by_cases he : e.1 = c.id
    · simp [he]
    · simp [he, dsApply_dsApply]
  · have hnone : getEntry (l.map fun e => (e.1, dsApply e.1 e.2 us)) c.id = none := by
      cases hg : getEntry (l.map fun e => (e.1, dsApply e.1 e.2 us)) c.id with
      | none => rfl
      | some v => rw [hg] at h; simp at h
    have hl : getEntry l c.id = none := (getEntry_map_form_none_iff _ l c.id).mp hnone
    rw [setEntry_of_none c hnone, applyUpdates_eq_map, List.map_append, map_form_comp]
    have happ : getEntry
        ((l.map fun e => (e.1, dsApply e.1 (dsApply e.1 e.2 us) us)) ++
          [(c.id, c)].map fun e => (e.1, dsApply e.1 e.2 us)) c.id =
        some (dsApply c.id c us) := by
      rw [getEntry_append_of_none]
      · simp [getEntry]
      · exact (getEntry_map_form_none_iff _ l c.id).mpr hl
    have hsome : (getEntry
        ((l.map fun e => (e.1, dsApply e.1 (dsApply e.1 e.2 us) us)) ++
          [(c.id, c)].map fun e => (e.1, dsApply e.1 e.2 us)) c.id).isSome = true := by
      rw [happ]
      rfl
    rw [setEntry_of_isSome c hsome, List.map_append, map_form_comp]
    have hone : (([(c.id, c)].map fun e => (e.1, dsApply e.1 e.2 us)).map fun e =>
        (e.1, if e.1 = c.id then c else e.2)) = [(c.id, c)] := by
      simp
    rw [hone]
    congr 1
    refine List.map_congr_left fun e he => ?_
    have hne : e.1 ≠ c.id := by
      intro hc
      rw [getEntry_eq_none_iff] at hl
      exact hl (List.mem_map.mpr ⟨e, he, hc⟩)
    simp [hne, dsApply_dsApply]

theorem removeList_idem (l : List (Nat × INode)) (us : List (Nat × NodeDelta)) (b : Nat) :
    removeEntry (applyUpdates (removeEntry (applyUpdates l us) b) us) b =
      removeEntry (applyUpdates l us) b := by
  rw [applyUpdates_removeEntry, applyUpdates_applyUpdates, removeEntry_removeEntry]

end Client

/-- **C9** (amended): client delta application is idempotent, except that the
`nodeRemoved` reducer's `selectedNode` fallback can differ on a corrupt client
entry whose own `prev` or `next` points at the deleted id itself; excluding
that self-referential case (impossible in any doubly-linked list state),
applying any `nodeAdded` or `nodeRemoved` payload twice equals applying it
once, and a delta naming an id absent from the client map does not fail and
leaves that entry absent, apart from the delta's own created node. -/
theorem client_delta_idempotent :
    (∀ (st : Client.NodesState) (p : Client.NodeAddedData),
       Client.addNode (Client.addNode st p) p = Client.addNode st p) ∧
    (∀ (st : Client.NodesState) (p : Client.NodeRemovedData),
       (∀ dn, Client.getEntry st.list p.deletedNodeId = some dn →
          dn.next ≠ some p.deletedNodeId ∧ dn.prev ≠ some p.deletedNodeId) →
       Client.removeNode (Client.removeNode st p) p = Client.removeNode st p) ∧
    (∀ (st : Client.NodesState) (p : Client.NodeAddedData) (k : Nat),
       Client.getEntry st.list k = none → k ≠ p.createdNode.id →
       Client.getEntry (Client.addNode st p).list k = none) ∧
    (∀ (st : Client.NodesState) (p : Client.NodeRemovedData) (k : Nat),
       Client.getEntry st.list k = none →
       Client.getEntry (Client.removeNode st p).list k = none) := by
  refine ⟨?_, ?_, ?_, ?_⟩
  · intro st p
    refine Client.nstateExt ?_ ?_
    · simp only [Client.addNode_list]
      exact Client.addList_idem st.list p.updatedNodes p.createdNode
    · simp only [Client.addNode_sel]
      cases st.selectedNode <;> rfl
  · intro st p hsel
    refine Client.nstateExt ?_ ?_
    · simp only [Client.removeNode_list]
      exact Client.removeList_idem st.list p.updatedNodes p.deletedNodeId
    · have hne : (Client.removeNode st p).selectedNode ≠ some p.deletedNodeId := by
        rw [Client.removeNode_sel]
        by_cases hs : st.selectedNode = some p.deletedNodeId
        · rw [if_pos hs]
          cases hdn : Client.getEntry st.list p.deletedNodeId with
          | none => simp
          | some dn =>
            obtain ⟨hnx, hpv⟩ := hsel dn hdn
            show (match dn.next with
                  | some nx => some nx
                  | none => dn.prev) ≠ some p.deletedNodeId
            revert hnx
            generalize dn.next = o
            intro hnx
            cases o with
            | none => exact hpv
            | some nx => exact hnx
        · rw [if_neg hs]
          exact hs
      rw [Client.removeNode_sel (Client.removeNode st p) p, if_neg hne]
  · intro st p k hk hkc
    rw [Client.addNode_list, Client.applyUpdates_eq_map]
    by_cases h : (Client.getEntry
        (st.list.map fun e => (e.1, Client.dsApply e.1 e.2 p.updatedNodes))
        p.createdNode.id).isSome = true
    · rw [Client.setEntry_of_isSome _ h]
      rw [Client.getEntry_map_form_none_iff]
      rw [(Client.getEntry_map_form_none_iff (fun e => Client.dsApply e.1 e.2 p.updatedNodes)
        st.list k)]
      exact hk
    · have hnone : Client.getEntry
          (st.list.map fun e => (e.1, Client.dsApply e.1 e.2 p.updatedNodes))
          p.createdNode.id = none := by
        cases hg : Client.getEntry
            (st.list.map fun e => (e.1, Client.dsApply e.1 e.2 p.updatedNodes))
            p.createdNode.id with
        | none => rfl
        | some v => rw [hg] at h; simp at h
      rw [Client.setEntry_of_none _ hnone]
      rw [Client.getEntry_append_of_none]
      · simp [Client.getEntry, Ne.symm hkc]
      · rw [Client.getEntry_map_form_none_iff]
        exact hk
  · intro st p k hk
    rw [Client.removeNode_list]
    rw [Client.getEntry_eq_none_iff]
    intro hmem
    rw [List.mem_map] at hmem
    obtain ⟨e, he, hke⟩ := hmem
    simp only [Client.removeEntry] at he
    rw [List.mem_filter] at he
    have he1 := he.1
    rw [Client.applyUpdates_eq_map, List.mem_map] at he1
    obtain ⟨e0, he0, heq⟩ := he1
    rw [Client.getEntry_eq_none_iff] at hk
    apply hk
    rw [List.mem_map]
    refine ⟨e0, he0, ?_⟩
    have : e0.1 = e.1 := by rw [← heq]
    rw [this, hke]

theorem client_delta_idempotent_witness :
    Client.removeNode
        (Client.removeNode
          ⟨[(1, ⟨1, none, some 2, 0⟩), (2, ⟨2, some 1, none, 0⟩)], some 2⟩
          ⟨2, [(1, ⟨none, some none⟩)]⟩)
        ⟨2, [(1, ⟨none, some none⟩)]⟩ =
      Client.removeNode
        ⟨[(1, ⟨1, none, some 2, 0⟩), (2, ⟨2, some 1, none, 0⟩)], some 2⟩
        ⟨2, [(1, ⟨none, some none⟩)]⟩ :=
  client_delta_idempotent.2.1 _ _ (by
    intro dn h
    simp only [Client.getEntry] at h
    norm_num at h
    rw [← h]
    exact ⟨by decide, by decide⟩)

/-- **C2**: insert in the middle.  For every two-node list `A→B` (with any
versions) and fresh id `c`, `insertAfter(A.id)` succeeds, creates
`C(prev=A, next=B, version=0)`, returns
`updatedNodes = {A ↦ {next: C}, B ↦ {prev: C}}` with `createdNode = C`, and
commits `A→C→B` with `A.next = C`, `B.prev = C` and both versions bumped by
one. -/
theorem insertAfter_middle (a b c va vb : Nat) (hab : a ≠ b) (hca : c ≠ a) (hcb : c ≠ b) :
    insertAfter [(a, ⟨none, some b, va⟩), (b, ⟨some a, none, vb⟩)] a c =
      .ok (⟨c, ⟨some a, some b, 0⟩,
             [(a, ⟨none, some (some c)⟩), (b, ⟨some (some c), none⟩)]⟩,
           [(a, ⟨none, some c, va + 1⟩), (b, ⟨some c, none, vb + 1⟩),
            (c, ⟨some a, some b, 0⟩)]) := by
  simp [insertAfter, findById, findOneAndUpdate, updateById,
    hab, Ne.symm hab, hca, Ne.symm hca, hcb, Ne.symm hcb]

theorem insertAfter_middle_witness :
    insertAfter [(1, ⟨none, some 2, 0⟩), (2, ⟨some 1, none, 0⟩)] 1 3 =
      .ok (⟨3, ⟨some 1, some 2, 0⟩,
             [(1, ⟨none, some (some 3)⟩), (2, ⟨some (some 3), none⟩)]⟩,
           [(1, ⟨none, some 3, 1⟩), (2, ⟨some 3, none, 1⟩),
            (3, ⟨some 1, some 2, 0⟩)]) :=
  insertAfter_middle 1 2 3 0 0 (by decide) (by decide) (by decide)

/-- **C3**: delete in the middle.  For every three-node list `A→B→C` (with
any versions), `removeNode(B.id)` succeeds, returns
`{deletedNodeId: B, updatedNodes: {A ↦ {next: C}, C ↦ {prev: A}}}`, and
commits a state whose persisted nodes are exactly `{A, C}` with
`A.next = C`, `C.prev = A` and both versions bumped by one (`B` is gone). -/
theorem removeNode_middle (a b c va vb vc : Nat) (hab : a ≠ b) (hbc : b ≠ c) (hac : a ≠ c) :
    removeNode [(a, ⟨none, some b, va⟩), (b, ⟨some a, some c, vb⟩), (c, ⟨some b, none, vc⟩)]
        b =
      .ok (⟨b, [(a, ⟨none, some (some c)⟩), (c, ⟨some (some a), none⟩)]⟩,
           [(a, ⟨none, some c, va + 1⟩), (c, ⟨some a, none, vc + 1⟩)]) := by
  simp [removeNode, removeStepPrev, removeStepNext, findById, findOneAndUpdate,
    findOneAndDelete, updateById, removeById,
    hab, Ne.symm hab, hbc, Ne.symm hbc, hac, Ne.symm hac]

theorem removeNode_middle_witness :
    removeNode [(1, ⟨none, some 2, 0⟩), (2, ⟨some 1, some 3, 0⟩), (3, ⟨some 2, none, 0⟩)]
        2 =
      .ok (⟨2, [(1, ⟨none, some (some 3)⟩), (3, ⟨some (some 1), none⟩)]⟩,
           [(1, ⟨none, some 3, 1⟩), (3, ⟨some 1, none, 1⟩)]) :=
  removeNode_middle 1 2 3 0 0 0 (by decide) (by decide) (by decide)

/-- **C9** counterexample to the claim as stated (universal idempotency over
*every* client model): on a client state holding a node `2` whose `prev`
points at itself (with `selectedNode = 2`), applying the same `nodeRemoved`
payload for id `2` twice yields `selectedNode = none`, while applying it once
leaves `selectedNode = some 2` — the two states differ. -/
theorem client_remove_not_idempotent_counterexample :
    Client.removeNode
        (Client.removeNode ⟨[(2, ⟨2, some 2, none, 0⟩)], some 2⟩ ⟨2, []⟩) ⟨2, []⟩ ≠
      Client.removeNode ⟨[(2, ⟨2, some 2, none, 0⟩)], some 2⟩ ⟨2, []⟩ := by
  decide

/-- **C10.** Sequential executions never retry: starting from any persisted
state satisfying the list-wide invariants, a single insert-at-head,
insert-after or delete transaction runs with every conditional-update and
conditional-delete predicate matching the row it just read, so the transaction
body never produces the RETRYABLE signal, and `withRetry` returns the
operation's own result after exactly one attempt. -/
theorem sequential_no_retry {s : DbState} (hinv : InvFull s) :
    (∀ c, insertAtHead s c ≠ .error retryError ∧
      withRetry (fun _ => insertAtHead s c) = (insertAtHead s c, 1)) ∧
    (∀ a c, insertAfter s a c ≠ .error retryError ∧
      withRetry (fun _ => insertAfter s a c) = (insertAfter s a c, 1)) ∧
    (∀ b, removeNode s b ≠ .error retryError ∧
      withRetry (fun _ => removeNode s b) = (removeNode s b, 1)) := by
  obtain ⟨hwf, _, _, _, _, L, hrep⟩ := hinv
  refine ⟨?_, ?_, ?_⟩
  · intro c
    obtain ⟨v, hv⟩ := insertAtHead_sequential_ok hwf c
    refine ⟨(by rw [hv]; intro h; cases h), ?_⟩
    exact withRetryFrom_const_first _ (Or.inl ⟨v, hv⟩) _ (by decide)
  · intro a c
    rcases insertAfter_sequential hwf hrep a c with ⟨v, hv⟩ | hconf
    · refine ⟨(by rw [hv]; intro h; cases h), ?_⟩
      exact withRetryFrom_const_first _ (Or.inl ⟨v, hv⟩) _ (by decide)
    · refine ⟨(by rw [hconf]; exact conflict_result_ne_retry), ?_⟩
      exact withRetryFrom_const_first _ (Or.inr ⟨_, hconf⟩) _ (by decide)
  · intro b
    rcases removeNode_sequential hwf hrep b with ⟨v, hv⟩ | hconf
    · refine ⟨(by rw [hv]; intro h; cases h), ?_⟩
      exact withRetryFrom_const_first _ (Or.inl ⟨v, hv⟩) _ (by decide)
    · refine ⟨(by rw [hconf]; exact conflict_result_ne_retry), ?_⟩
      exact withRetryFrom_const_first _ (Or.inr ⟨_, hconf⟩) _ (by decide)

theorem sequential_no_retry_witness :
    InvFull ([] : DbState) ∧
    insertAtHead ([] : DbState) 1 ≠ .error retryError ∧
    withRetry (fun _ => insertAtHead ([] : DbState) 1) =
      (insertAtHead ([] : DbState) 1, 1) ∧
    removeNode ([] : DbState) 5 ≠ .error retryError ∧
    withRetry (fun _ => removeNode ([] : DbState) 5) =
      (removeNode ([] : DbState) 5, 1) :=
  ⟨invFull_nil,
   ((sequential_no_retry invFull_nil).1 1).1,
   ((sequential_no_retry invFull_nil).1 1).2,
   ((sequential_no_retry invFull_nil).2.2 5).1,
   ((sequential_no_retry invFull_nil).2.2 5).2⟩

end GraphList
